import Mathlib

set_option maxRecDepth 10000

/-!
# Verification of the file-manager core algorithms

Shallow embedding of the core filesystem algorithms of the repository:

* `src/core/compare.py` — tree indexing (`index_tree`) and four-way directory
  comparison (`compare_dirs`);
* `src/core/ops.py` — collision-free path generation (`unique_path`,
  `unique_file_path`, `unique_dir_path`) and conflict-safe directory merge
  (`merge_copy_dir`);
* `src/core/batch_rename.py` — templated batch-rename planner (`build_plan`,
  `_apply_template`).

Machine integers are modelled as `Nat`/`Int` (Python integers are unbounded, so
no wrap-around modelling is needed).  Fallible code returns `Except`/`Option`.
Filesystem state is explicit: a directory tree (`FSTree`) for the read-only
indexing path, and a mutable path→node map (`FS`) for the merge/rename path.
-/

namespace FileManager

/-! ## Part A: data model of `src/core/compare.py`

`FileInfo` mirrors the frozen dataclass `FileInfo(rel, size, mtime_ns, is_dir,
sha256)`.  `sha256 = none` models Python `None` (hash not computed, or hashing
raised and was swallowed at compare.py lines 71-74). -/

structure FileInfo where
  rel : String
  size : Nat
  mtime_ns : Int
  is_dir : Bool
  sha256 : Option String
deriving DecidableEq, Repr

/-- Mirror of the `CompareResult` dataclass (compare.py lines 19-26).  The
`left_root`/`right_root` fields are omitted: they merely echo the (resolved)
input arguments and carry no information about the diff. -/
structure CompareResult where
  only_left : List FileInfo
  only_right : List FileInfo
  different : List (FileInfo × FileInfo)
  same : List (FileInfo × FileInfo)
deriving DecidableEq, Repr

/-- A directory tree.  A `file` node carries the size, mtime and the sha256
digest that `_sha256_file` would produce for it (`none` models the hashing
call raising, e.g. on a read failure; compare.py lines 71-74 turn that into a
null hash).  A `dir` node carries the size/mtime reported by `stat` for the
directory entry itself plus its children.  A stat failure (compare.py lines
65-67) is representable as size 0 / mtime 0 directly. -/
inductive FSTree where
  | file (name : String) (size : Nat) (mtime_ns : Int) (hash : Option String) : FSTree
  | dir (name : String) (size : Nat) (mtime_ns : Int) (children : List FSTree) : FSTree

def FSTree.name : FSTree → String
  | .file n _ _ _ => n
  | .dir n _ _ _ => n

/-- Relative-path join: the `rel` computed at compare.py line 55 for an entry
named `n` inside the directory whose own relative path is `pre` (`""` for the
root itself). -/
def joinRel (pre n : String) : String :=
  if pre = "" then n else pre ++ "/" ++ n

/-- The `FileInfo` recorded for one scandir entry (compare.py lines 56-76):
`is_dir` via a non-following type check, `sha256` only when `use_hash` is true
and the entry is a regular file. -/
def FSTree.entryInfo (use_hash : Bool) (rel : String) : FSTree → FileInfo
  | .file _ sz mt h => ⟨rel, sz, mt, false, if use_hash then h else none⟩
  | .dir _ sz mt _ => ⟨rel, sz, mt, true, none⟩

/-- A snapshot: the Python dict `rel_path -> FileInfo`, as an insertion-ordered
association list (Python 3.7+ dict semantics). -/
abbrev Snapshot := List (String × FileInfo)

/-- Python dict assignment `out[rel] = info`: replace in place if the key is
present (keeping its position), else append. -/
def dictInsert : Snapshot → String → FileInfo → Snapshot
  | [], k, v => [(k, v)]
  | e :: rest, k, v => if e.1 = k then (k, v) :: rest else e :: dictInsert rest k v

/-- Python `dict.get`. -/
def lookupKey : Snapshot → String → Option FileInfo
  | [], _ => none
  | e :: rest, k => if e.1 = k then some e.2 else lookupKey rest k

/-- Record all entries of one scanned directory (the `for e in it` body,
compare.py lines 54-76, without the stack pushes). -/
def scanEntries (use_hash : Bool) (pre : String) (cs : List FSTree) (out : Snapshot) : Snapshot :=
  cs.foldl (fun acc c => dictInsert acc (joinRel pre c.name) (c.entryInfo use_hash (joinRel pre c.name))) out

/-- The subdirectories pushed onto the traversal stack while scanning one
directory (compare.py lines 78-79), in scandir order. -/
def dirPushes (pre : String) (cs : List FSTree) : List (String × List FSTree) :=
  cs.filterMap (fun c => match c with
    | .dir _ _ _ cs' => some (joinRel pre c.name, cs')
    | .file _ _ _ _ => none)

mutual
def FSTree.sizeT : FSTree → Nat
  | .file _ _ _ _ => 1
  | .dir _ _ _ cs => 1 + sizeList cs
def sizeList : List FSTree → Nat
  | [] => 0
  | t :: ts => t.sizeT + sizeList ts
end

/-- The `while stack and len(out) < limit` loop of `index_tree` (compare.py
lines 50-81).  The Python stack appends and pops at the end; here the head of
the list is the top of the stack, so the freshly pushed subdirectories are
reversed before being prepended.  `fuel` bounds the number of loop iterations;
each iteration pops exactly one stack element and every element pushed
corresponds to a distinct `dir` node of the forest, so `1 + sizeList roots`
iterations always suffice (the loop exits on an empty stack or on reaching
`limit` before the fuel can run out). -/
def indexLoop (use_hash : Bool) (limit : Nat) : Nat → List (String × List FSTree) → Snapshot → Snapshot
  | 0, _, out => out
  | _ + 1, [], out => out
  | fuel + 1, (pre, cs) :: rest, out =>
      if out.length < limit then
        indexLoop use_hash limit fuel ((dirPushes pre cs).reverse ++ rest) (scanEntries use_hash pre cs out)
      else out

/-- Mirror of `index_tree(root, use_hash, limit)` (compare.py lines 40-83), applied to
the children of the (already resolved) root. -/
def index_tree (use_hash : Bool) (limit : Nat) (ts : List FSTree) : Snapshot :=
  indexLoop use_hash limit (1 + sizeList ts) [("", ts)] []

/-- Python truthiness of an `Optional[str]`: `None` and `""` are falsy.  Used
for the `a.sha256 and b.sha256` test at compare.py line 120. -/
def truthyStr : Option String → Bool
  | none => false
  | some s => s != ""

/-- The per-key classification of a pair present on both sides (compare.py
lines 109-128): `true` means the pair goes to `same`, `false` to `different`. -/
def sameRecord (use_hash : Bool) (a b : FileInfo) : Bool :=
  if a.is_dir != b.is_dir then false
  else if a.is_dir && b.is_dir then true
  else if use_hash then
    a.size == b.size && truthyStr a.sha256 && truthyStr b.sha256 && a.sha256 == b.sha256
  else
    a.size == b.size && a.mtime_ns == b.mtime_ns

def insertSorted (k : String) : List String → List String
  | [] => [k]
  | x :: xs => if k ≤ x then k :: x :: xs else x :: insertSorted k xs

/-- Python `sorted(keys)` — insertion sort on the lexicographic string order. -/
def sortKeys (l : List String) : List String := l.foldr insertSorted []

/-- One iteration of the `for k in sorted(keys)` loop (compare.py lines
99-128).  The `none, none` case is unreachable for keys drawn from the union
of the two keyspaces. -/
def stepKey (use_hash : Bool) (L R : Snapshot) (acc : CompareResult) (k : String) : CompareResult :=
  match lookupKey L k, lookupKey R k with
  | none, none => acc
  | none, some b => { acc with only_right := acc.only_right ++ [b] }
  | some a, none => { acc with only_left := acc.only_left ++ [a] }
  | some a, some b =>
      if sameRecord use_hash a b then { acc with same := acc.same ++ [(a, b)] }
      else { acc with different := acc.different ++ [(a, b)] }

/-- The classification phase of `compare_dirs` over two already-built
snapshots (compare.py lines 93-128): iterate over the sorted union of the two
keyspaces. -/
def compareSnapshots (use_hash : Bool) (L R : Snapshot) : CompareResult :=
  (sortKeys ((L.map Prod.fst ++ R.map Prod.fst).dedup)).foldl (stepKey use_hash L R) ⟨[], [], [], []⟩

/-- Mirror of `compare_dirs(left, right, use_hash)` (compare.py lines 86-137): index both
roots with the same flag (and the default `limit=200_000`), then classify. -/
def compare_dirs (use_hash : Bool) (ts1 ts2 : List FSTree) : CompareResult :=
  compareSnapshots use_hash (index_tree use_hash 200000 ts1) (index_tree use_hash 200000 ts2)

/-- How many times relative path `k` appears in a list of records. -/
def relCount (l : List FileInfo) (k : String) : Nat := l.countP (fun e => e.rel == k)

/-- How many times relative path `k` appears (via the left component) in a list
of record pairs. -/
def relCountP (l : List (FileInfo × FileInfo)) (k : String) : Nat :=
  l.countP (fun e => e.1.rel == k)

/-- Total number of occurrences of relative path `k` across the four result
sequences of a `CompareResult`. -/
def CompareResult.keyCount (r : CompareResult) (k : String) : Nat :=
  relCount r.only_left k + relCount r.only_right k + relCountP r.different k + relCountP r.same k

/-- Well-formedness of a snapshot: each value records its own key as `rel`
(true by construction in `index_tree`, compare.py line 76). -/
def relWF (m : Snapshot) : Prop := ∀ e ∈ m, e.2.rel = e.1

mutual
/-- All hashes stored in the tree are either `none` or a nonempty string.  The
real `_sha256_file` returns a 64-character hex digest, never `""`, so every
tree describing a real filesystem satisfies this. -/
def FSTree.hashWFB : FSTree → Bool
  | .file _ _ _ h => h != some ""
  | .dir _ _ _ cs => hashWFListB cs
def hashWFListB : List FSTree → Bool
  | [] => true
  | t :: ts => t.hashWFB && hashWFListB ts
end

/-- Hash well-formedness of one snapshot entry. -/
def entryHashOK (v : FileInfo) : Prop := v.sha256 ≠ some ""

mutual
/-- Maximal number of direct children of any directory inside the tree, the
node itself included. -/
def FSTree.fanout : FSTree → Nat
  | .file _ _ _ _ => 0
  | .dir _ _ _ cs => max cs.length (fanoutList cs)
def fanoutList : List FSTree → Nat
  | [] => 0
  | t :: ts => max t.fanout (fanoutList ts)
end

/-! ## Part B: mutable filesystem model for `src/core/ops.py`

A live filesystem is a finite map from absolute paths (component lists, all
paths already resolved — the model has no symlinks or `..`, so pathlib's
`resolve()` is the identity) to nodes.  `Node.file c` stands for a regular
file with byte content (and copied metadata) `c`; `copy2` preserves both, so a
single value suffices.  The map is an insertion-ordered association list, like
the snapshot above; `iterdir` enumerates children in list order (the real
enumeration order is OS-arbitrary, and nothing below depends on it). -/

abbrev Path := List String

inductive Node where
  | file (content : String)
  | dir
deriving DecidableEq, Repr

abbrev FS := List (Path × Node)

def fsGet : FS → Path → Option Node
  | [], _ => none
  | e :: rest, p => if e.1 = p then some e.2 else fsGet rest p

/-- Create or overwrite the object at `p` (first occurrence replaced in place,
else appended — standard association-list update). -/
def fsSet : FS → Path → Node → FS
  | [], p, v => [(p, v)]
  | e :: rest, p, v => if e.1 = p then (p, v) :: rest else e :: fsSet rest p v

def fsExists (fs : FS) (p : Path) : Bool := (fsGet fs p).isSome

def isDirFS (fs : FS) (p : Path) : Bool := fsGet fs p == some .dir

def isFileFS (fs : FS) (p : Path) : Bool :=
  match fsGet fs p with
  | some (.file _) => true
  | _ => false

def parentOf (p : Path) : Path := p.dropLast

def lastName (p : Path) : String := p.getLastD ""

/-- Names of the direct children of directory `p`, in map order
(`Path.iterdir`). -/
def childNames (fs : FS) (p : Path) : List String :=
  (fs.filterMap (fun e => if e.1.dropLast = p ∧ e.1 ≠ [] then e.1.getLast? else none)).dedup

/-- The nonempty prefixes of `p`, shortest first. -/
def pathPrefixes (p : Path) : List Path :=
  (List.range p.length).map (fun i => p.take (i + 1))

/-- Python `dst_dir.mkdir(parents=True, exist_ok=True)` (ops.py line 91): create every
missing ancestor of `p` (and `p` itself) as a directory, leaving existing
objects untouched.  (If an ancestor exists as a *file* the real call raises;
the claims below never depend on that error path, and an exception would only
mean fewer creations, never a modification of an existing entry.) -/
def mkdirP (fs : FS) (p : Path) : FS :=
  (pathPrefixes p).foldl (fun acc q => if fsExists acc q then acc else fsSet acc q .dir) fs

/-! ### Decimal rendering of the probe counter

Python renders the counter with `f"... ({i}) ..."`, i.e. the standard decimal
representation.  `natRepr` is that representation, built by structural
recursion so that it evaluates inside `decide`. -/

def digitChar (d : Nat) : Char := Char.ofNat (48 + d)

/-- Little-endian base-10 digits, with explicit fuel (`fuel = n` always
suffices since `n / 10 < n` for positive `n`). -/
def natDigitsAux : Nat → Nat → List Nat
  | _, 0 => []
  | 0, _ => []
  | fuel + 1, n + 1 => ((n + 1) % 10) :: natDigitsAux fuel ((n + 1) / 10)

def natDigits (n : Nat) : List Nat := natDigitsAux n n

/-- Decimal value of a little-endian digit list (left inverse of `natDigits`). -/
def ofDigits10 (l : List Nat) : Nat := l.foldr (fun d r => d + 10 * r) 0

/-- Python `str(n)` for a natural number. -/
def natRepr (n : Nat) : String :=
  if n = 0 then "0" else ⟨((natDigits n).map digitChar).reverse⟩

/-- File-style numbered candidate: `stem (i)suffix` next to `p`
(ops.py lines 122-124), splitting the last component with pathlib's
`stem`/`suffix` rule. -/
def lastDotAux : List Char → Nat → Option Nat → Option Nat
  | [], _, best => best
  | c :: cs, i, best => lastDotAux cs (i + 1) (if c = '.' then some i else best)

def lastDot (l : List Char) : Option Nat := lastDotAux l 0 none

/-- pathlib `PurePath.stem`/`suffix`: the suffix is nonempty exactly when the
last dot sits strictly inside the name (not first, not last character). -/
def splitStem (n : String) : String × String :=
  match lastDot n.data with
  | some i => if 0 < i ∧ i < n.data.length - 1 then (⟨n.data.take i⟩, ⟨n.data.drop i⟩) else (n, "")
  | none => (n, "")

def mkFileCand (p : Path) (i : Nat) : Path :=
  parentOf p ++ [(splitStem (lastName p)).1 ++ " (" ++ natRepr i ++ ")" ++ (splitStem (lastName p)).2]

/-- Directory-style numbered candidate: the whole name gets ` (i)` appended,
independent of dots (ops.py lines 137-139). -/
def mkDirCand (p : Path) (i : Nat) : Path :=
  parentOf p ++ [lastName p ++ " (" ++ natRepr i ++ ")"]

/-- The `i = 1; while True: ... i += 1` probe loop of the unique-name helpers.
The Python loop is unbounded; it terminates because the filesystem is finite
and the candidates for distinct `i` are distinct paths, so probing
`fs.length + 1` candidates always reaches a free one (proved below as
`existsFreeCand`).  The fuel-exhaustion branch is therefore unreachable when
the bound `fs.length + 1` is used. -/
def probeFrom (fs : FS) (mk : Nat → Path) : Nat → Nat → Path
  | 0, i => mk i
  | b + 1, i => if fsExists fs (mk i) then probeFrom fs mk b (i + 1) else mk i

/-- Mirror of `unique_file_path(dst)` (ops.py lines 113-127): probe `stem (1).suffix`,
`stem (2).suffix`, … regardless of what occupies `dst`. -/
def unique_file_path (fs : FS) (p : Path) : Path :=
  probeFrom fs (mkFileCand p) (fs.length + 1) 1

/-- Mirror of `unique_dir_path(dst)` (ops.py lines 130-143): probe `name (1)`,
`name (2)`, … regardless of what occupies `dst`. -/
def unique_dir_path (fs : FS) (p : Path) : Path :=
  probeFrom fs (mkDirCand p) (fs.length + 1) 1

/-- Mirror of `unique_path(path)` (ops.py lines 44-72): return the path unchanged when
free; otherwise number directory-style when the occupant is a directory, else
file-style. -/
def unique_path (fs : FS) (p : Path) : Path :=
  if fsExists fs p = false then p
  else if fsExists fs p && isDirFS fs p then probeFrom fs (mkDirCand p) (fs.length + 1) 1
  else probeFrom fs (mkFileCand p) (fs.length + 1) 1

inductive PathKind where
  | file
  | directory
deriving DecidableEq

/-- The PathUniquifier contract `uniquify(candidatePath, kind)` as realized by
the code: callers first check existence and only then disambiguate with the
kind-specific helper (exactly the pattern of `merge_copy_dir`, ops.py lines
98-99 and 106-108; `unique_path` performs the same existence short-circuit at
line 49). -/
def uniquify (fs : FS) (p : Path) (k : PathKind) : Path :=
  if fsExists fs p = false then p
  else match k with
    | .file => unique_file_path fs p
    | .directory => unique_dir_path fs p

/-- Kind-directed candidate shape. -/
def mkCand : PathKind → Path → Nat → Path
  | .file => mkFileCand
  | .directory => mkDirCand

/-! ### `merge_copy_dir` (ops.py lines 75-110)

The recursion is modelled with explicit fuel standing for Python's call-stack
depth: fuel exhaustion corresponds to a `RecursionError`, which leaves every
mutation performed so far applied (no rollback), exactly as the model returns
the filesystem reached so far.  For any terminating run of the Python code a
large enough fuel reproduces it verbatim. -/

/-- The body of the `for src_item in src_dir.iterdir()` loop for one child
name `n` (ops.py lines 93-110).  `rec` is the recursive merge call. -/
def mergeChildStep (rec : FS → Path → Path → FS) (src dst : Path) (fs : FS) (n : String) : FS :=
  let srcItem := src ++ [n]
  let dstItem := dst ++ [n]
  if isDirFS fs srcItem then
    let dstItem2 := if fsExists fs dstItem && isFileFS fs dstItem then unique_dir_path fs dstItem else dstItem
    rec fs srcItem dstItem2
  else
    let dstItem2 := if fsExists fs dstItem then unique_file_path fs dstItem else dstItem
    match fsGet fs srcItem with
    | some (.file c) => fsSet fs dstItem2 (.file c)
    | _ => fs

/-- One level of `merge_copy_dir`: precondition check (a non-directory source
raises `ValueError`, leaving the filesystem untouched at this level), `mkdir`,
then the child loop over a snapshot of the child list. -/
def mergeGo (rec : FS → Path → Path → FS) (fs : FS) (src dst : Path) : FS :=
  if isDirFS fs src then
    let fs1 := mkdirP fs dst
    (childNames fs1 src).foldl (mergeChildStep rec src dst) fs1
  else fs

def merge_copy_dir : Nat → FS → Path → Path → FS
  | 0, fs, _, _ => fs
  | fuel + 1, fs, src, dst => mergeGo (merge_copy_dir fuel) fs src dst

/-! ## Part C: `src/core/batch_rename.py` -/

/-- Mirror of the frozen dataclass `RenamePlanItem(src, dst)`. -/
structure RenamePlanItem where
  src : Path
  dst : Path
deriving DecidableEq, Repr

/-- The distinct `ValueError` conditions raised by `build_plan`.  The first
seven are parameter-validation failures ("ValidationError" in the spec's
taxonomy), `duplicateDst`/`dstExists` are the plan-conflict failures
("ConflictError"). -/
inductive RenameError where
  | affixEmpty
  | replaceEmpty
  | regexEmpty
  | regexInvalid
  | templateEmpty
  | templateNoMarker
  | unknownMode
  | duplicateDst
  | dstExists
deriving DecidableEq, Repr

/-- The Python `re` library, as an oracle: `compileOk a` is whether
`re.compile(a)` succeeds, `sub a b s` is `re.sub(a, b, s)`.  Only the `regex`
mode consults it; the fixed template-placeholder pattern used by
`_apply_template` is implemented concretely below. -/
structure ReOracle where
  compileOk : String → Bool
  sub : String → String → String → String

/-- Python `str.strip()`: drop leading and trailing whitespace
(batch_rename.py lines 50-52). -/
def pyStrip (s : String) : String :=
  ⟨((s.data.dropWhile Char.isWhitespace).reverse.dropWhile Char.isWhitespace).reverse⟩

/-- Python `str.replace` scanning loop for a nonempty pattern: leftmost
non-overlapping occurrences, left to right.  Fuel = input length suffices
(each step consumes at least one character). -/
def strReplaceAux (pat rep : List Char) : Nat → List Char → List Char
  | _, [] => []
  | 0, s => s
  | fuel + 1, c :: cs =>
      if pat.isPrefixOf (c :: cs) then rep ++ strReplaceAux pat rep fuel ((c :: cs).drop pat.length)
      else c :: strReplaceAux pat rep fuel cs

/-- Python `s.replace(pat, rep)` (including the empty-pattern behaviour, which
interleaves `rep` around every character — unreachable from `build_plan`
because validation requires a nonempty search string for `replace` mode). -/
def pyReplace (s pat rep : String) : String :=
  if pat.data = [] then ⟨rep.data ++ s.data.foldr (fun c acc => c :: (rep.data ++ acc)) []⟩
  else ⟨strReplaceAux pat.data rep.data s.data.length s.data⟩

/-- Substring containment, for the `"{n" not in tpl` marker check
(batch_rename.py line 75). -/
def strContains (s pat : List Char) : Bool :=
  (List.range (s.length + 1)).any (fun k => pat.isPrefixOf (s.drop k))

/-- The code's template-marker test: the template contains the substring
`"{n"`. -/
def hasMarkerB (tpl : String) : Bool := strContains tpl.data ['\x7b', 'n']

/-- Python `str(i)` for an int. -/
def intRepr (i : Int) : String :=
  if i < 0 then "-" ++ natRepr i.natAbs else natRepr i.natAbs

def zeroChars : Nat → List Char
  | 0 => []
  | n + 1 => '0' :: zeroChars n

/-- Python `str.zfill(w)`: left-pad with `'0'` to width `w`, keeping a leading
sign in front of the padding. -/
def pyZfill (s : String) (w : Nat) : String :=
  if w ≤ s.length then s
  else match s.data with
    | '-' :: rest => ⟨'-' :: (zeroChars (w - s.length) ++ rest)⟩
    | '+' :: rest => ⟨'+' :: (zeroChars (w - s.length) ++ rest)⟩
    | other => ⟨zeroChars (w - s.length) ++ other⟩

/-- Maximal run of ASCII digits at the front. -/
def takeDigits : List Char → List Char × List Char
  | [] => ([], [])
  | c :: cs =>
      if c.isDigit then
        let p := takeDigits cs
        (c :: p.1, p.2)
      else ([], c :: cs)

def digitsToNat (ds : List Char) : Nat := ds.foldl (fun n c => 10 * n + (c.toNat - 48)) 0

/-- Match the fixed placeholder regex `\{n(?::([0-9]+))?\}` at the head of the
character list: `{n}` (no width) or `{n:` digits `}` (the digit run maximal —
the regex needs the closing brace right after it).  Returns the optional width
and the remainder after the match. -/
def matchMarker : List Char → Option (Option Nat × List Char)
  | '\x7b' :: 'n' :: '\x7d' :: rest => some (none, rest)
  | '\x7b' :: 'n' :: ':' :: rest =>
      match takeDigits rest with
      | ([], _) => none
      | (ds, '\x7d' :: rest2) => some (some (digitsToNat ds), rest2)
      | (_, _) => none
  | _ => none

/-- The `re.sub` scan of `_apply_template` (batch_rename.py lines 15-29):
leftmost non-overlapping matches of the placeholder pattern, each replaced by
`str(idx)` zero-filled to the width when one is given.  Fuel = input length
suffices: every step consumes at least one character. -/
def applyTemplateAux (idx : Int) : Nat → List Char → List Char
  | 0, cs => cs
  | _ + 1, [] => []
  | fuel + 1, c :: cs =>
      match matchMarker (c :: cs) with
      | some (w, rest) =>
          (match w with
           | some wd => (pyZfill (intRepr idx) wd).data
           | none => (intRepr idx).data) ++ applyTemplateAux idx fuel rest
      | none => c :: applyTemplateAux idx fuel cs

/-- Mirror of `_apply_template(idx, template)`. -/
def apply_template (idx : Int) (tpl : String) : String :=
  ⟨applyTemplateAux idx tpl.data.length tpl.data⟩

/-- The validation block of `build_plan` (batch_rename.py lines 54-76),
applied to the already-stripped parameters.  Only one of the mode guards can
fire, so the sequence of independent `if` statements collapses to this
chain. -/
def validateParams (ro : ReOracle) (mode a b template : String) : Except RenameError Unit :=
  if (mode = "prefix" ∨ mode = "suffix") ∧ b = "" ∧ a = "" then .error .affixEmpty
  else if mode = "replace" ∧ a = "" then .error .replaceEmpty
  else if mode = "regex" ∧ a = "" then .error .regexEmpty
  else if mode = "regex" ∧ ro.compileOk a = false then .error .regexInvalid
  else if mode = "template" ∧ (if template ≠ "" then template else b) = "" then .error .templateEmpty
  else if mode = "template" ∧ hasMarkerB (if template ≠ "" then template else b) = false then
    .error .templateNoMarker
  else .ok ()

/-- The per-item stem transform (batch_rename.py lines 84-96).  `b or a`
models Python string truthiness: `b` when nonempty, else `a`. -/
def newStemFor (ro : ReOracle) (mode a b template : String) (idx : Int) (stem : String) :
    Except RenameError String :=
  if mode = "prefix" then .ok ((if b ≠ "" then b else a) ++ stem)
  else if mode = "suffix" then .ok (stem ++ (if b ≠ "" then b else a))
  else if mode = "replace" then .ok (pyReplace stem a b)
  else if mode = "regex" then .ok (ro.sub a b stem)
  else if mode = "template" then .ok (apply_template idx (if template ≠ "" then template else b))
  else .error .unknownMode

/-- Split a string on `'/'` separators, keeping empty segments (standard
string split; the empties are filtered out by `pathlibParts` below, matching
pathlib's parsing). -/
def splitSlashAux : List Char → List Char → List String
  | [], acc => [⟨acc.reverse⟩]
  | c :: cs, acc => if c = '/' then ⟨acc.reverse⟩ :: splitSlashAux cs [] else splitSlashAux cs (c :: acc)

/-- The path components pathlib extracts from a string segment: split on the
POSIX separator, dropping empty components and `"."` components (exactly
`PurePosixPath`'s parsing; `".."` components are kept literally). -/
def pathlibParts (name : String) : List String :=
  (splitSlashAux name.data []).filter (fun s => s != "" && s != ".")

/-- Mirror of pathlib's `parent / name` (the `/` operator): the right operand
is *parsed*, not treated as one opaque component — a name containing `'/'`
contributes several components, and a name starting with `'/'` is absolute and
replaces the parent entirely.  (The POSIX `"//"` double-root anchor is out of
scope of this model.) -/
def pathlibJoin (parent : Path) (name : String) : Path :=
  if name.data.head? = some '/' then pathlibParts name else parent ++ pathlibParts name

/-- The plan-generation loop of `build_plan` (batch_rename.py lines 78-100):
one item per input path in order, `dst = parent / new_name` via the pathlib
join (so a separator inside the generated name moves the destination out of
the source's parent), new name = new stem + original suffix, counter advanced
by `step` per item. -/
def planLoop (ro : ReOracle) (mode a b template : String) (step : Int) :
    Int → List Path → Except RenameError (List RenamePlanItem)
  | _, [] => .ok []
  | idx, p :: ps =>
      match newStemFor ro mode a b template idx (splitStem (lastName p)).1 with
      | .error e => .error e
      | .ok ns =>
          match planLoop ro mode a b template step (idx + step) ps with
          | .error e => .error e
          | .ok rest =>
              .ok (⟨p, pathlibJoin (parentOf p) (ns ++ (splitStem (lastName p)).2)⟩ :: rest)

/-- Mirror of `build_plan(paths, mode, a, b, template, start, step)` (batch_rename.py
lines 32-110): strip the text parameters, validate, generate, then reject
duplicate destinations (`len(set(dsts)) != len(dsts)`) and destinations that
already exist on disk and are not their own source.  No filesystem mutation
happens anywhere: the function only returns the plan (or the error). -/
def build_plan (ro : ReOracle) (fs : FS) (paths : List Path) (mode a0 b0 t0 : String)
    (start step : Int) : Except RenameError (List RenamePlanItem) :=
  let a := pyStrip a0
  let b := pyStrip b0
  let template := pyStrip t0
  match validateParams ro mode a b template with
  | .error e => .error e
  | .ok _ =>
    match planLoop ro mode a b template step start paths with
    | .error e => .error e
    | .ok out =>
      let dsts := out.map (fun it => it.dst)
      if dsts.dedup.length ≠ dsts.length then .error .duplicateDst
      else match out.find? (fun it => fsExists fs it.dst && it.dst != it.src) with
        | some _ => .error .dstExists
        | none => .ok out

/-- A concrete `re` oracle (used only to instantiate witnesses). -/
def roId : ReOracle := ⟨fun _ => true, fun _ _ s => s⟩

/-- Predicate `frameOK d fs fs'` says the step from `fs` to `fs'` (1) preserves every
existing entry byte-for-byte and (2) changes the map only at paths comparable
with `d` (below `d`, or an ancestor of `d` created by `mkdir`). -/
def fsMono (fs fs' : FS) : Prop := ∀ p n, fsGet fs p = some n → fsGet fs' p = some n

def frameOK (d : Path) (fs fs' : FS) : Prop :=
  fsMono fs fs' ∧ ∀ p, fsGet fs' p ≠ fsGet fs p → (d <+: p ∨ p <+: d)

instance {ε α : Type} [DecidableEq ε] [DecidableEq α] : DecidableEq (Except ε α) := fun x y =>
  match x, y with
  | .error e, .error f =>
      if h : e = f then .isTrue (by rw [h]) else .isFalse (fun hh => by cases hh; exact h rfl)
  | .error _, .ok _ => .isFalse (fun hh => by cases hh)
  | .ok _, .error _ => .isFalse (fun hh => by cases hh)
  | .ok a, .ok b =>
      if h : a = b then .isTrue (by rw [h]) else .isFalse (fun hh => by cases hh; exact h rfl)

/-! ## Lemmas about snapshots and indexing -/

theorem lookupKey_mem {m : Snapshot} {k : String} {v : FileInfo}
    (h : lookupKey m k = some v) : (k, v) ∈ m := by
  induction m with
  | nil => simp [lookupKey] at h
  | cons e rest ih =>
      obtain ⟨e1, e2⟩ := e
      by_cases he : e1 = k
      · subst he
        rw [lookupKey, if_pos rfl] at h
        cases h
        exact List.mem_cons_self _ _
      · rw [lookupKey, if_neg he] at h
        exact List.mem_cons_of_mem _ (ih h)

theorem lookupKey_isSome_of_mem_fst {m : Snapshot} {k : String}
    (h : k ∈ m.map Prod.fst) : (lookupKey m k).isSome := by
  induction m with
  | nil => simp at h
  | cons e rest ih =>
      simp only [List.map_cons, List.mem_cons] at h
      by_cases he : e.1 = k
      · simp [lookupKey, he]
      · rcases h with h | h
        · exact absurd h.symm he
        · simpa [lookupKey, he] using ih h

theorem relWF_lookup {m : Snapshot} {k : String} {v : FileInfo}
    (hwf : relWF m) (h : lookupKey m k = some v) : v.rel = k :=
  hwf _ (lookupKey_mem h)

theorem mem_dictInsert {m : Snapshot} {k : String} {v : FileInfo} {e : String × FileInfo}
    (h : e ∈ dictInsert m k v) : e ∈ m ∨ e = (k, v) := by
  induction m with
  | nil => simpa [dictInsert] using h
  | cons hd rest ih =>
      by_cases hk : hd.1 = k
      · simp only [dictInsert, if_pos hk, List.mem_cons] at h
        rcases h with h | h
        · exact Or.inr h
        · exact Or.inl (List.mem_cons_of_mem _ h)
      · simp only [dictInsert, if_neg hk, List.mem_cons] at h
        rcases h with h | h
        · exact Or.inl (by simp [h])
        · rcases ih h with h' | h'
          · exact Or.inl (List.mem_cons_of_mem _ h')
          · exact Or.inr h'

theorem dictInsert_length (m : Snapshot) (k : String) (v : FileInfo) :
    (dictInsert m k v).length ≤ m.length + 1 := by
  induction m with
  | nil => simp [dictInsert]
  | cons hd rest ih =>
      by_cases hk : hd.1 = k
      · simp [dictInsert, if_pos hk]
      · simp only [dictInsert, if_neg hk, List.length_cons]
        omega

theorem entryInfo_rel (u : Bool) (rel : String) (c : FSTree) :
    (FSTree.entryInfo u rel c).rel = rel := by
  cases c <;> rfl

theorem scanEntries_mem {u : Bool} {pre : String} {cs : List FSTree} {out : Snapshot}
    {e : String × FileInfo} (h : e ∈ scanEntries u pre cs out) :
    e ∈ out ∨ ∃ c ∈ cs, e = (joinRel pre c.name, FSTree.entryInfo u (joinRel pre c.name) c) := by
  induction cs generalizing out with
  | nil => exact Or.inl h
  | cons c rest ih =>
      simp only [scanEntries, List.foldl_cons] at h
      rcases ih h with h' | h'
      · rcases mem_dictInsert h' with h'' | h''
        · exact Or.inl h''
        · exact Or.inr ⟨c, List.mem_cons_self c rest, h''⟩
      · rcases h' with ⟨c', hc', he⟩
        exact Or.inr ⟨c', List.mem_cons_of_mem _ hc', he⟩

theorem scanEntries_length (u : Bool) (pre : String) (cs : List FSTree) (out : Snapshot) :
    (scanEntries u pre cs out).length ≤ out.length + cs.length := by
  induction cs generalizing out with
  | nil => simp [scanEntries]
  | cons c rest ih =>
      simp only [scanEntries, List.foldl_cons]
      calc (scanEntries u pre rest (dictInsert out (joinRel pre c.name)
              (FSTree.entryInfo u (joinRel pre c.name) c))).length
          ≤ (dictInsert out (joinRel pre c.name)
              (FSTree.entryInfo u (joinRel pre c.name) c)).length + rest.length := ih _
        _ ≤ out.length + 1 + rest.length := by
              have := dictInsert_length out (joinRel pre c.name)
                (FSTree.entryInfo u (joinRel pre c.name) c)
              omega
        _ = out.length + (c :: rest).length := by simp [List.length_cons]; omega

theorem indexLoop_relWF (u : Bool) (lim : Nat) :
    ∀ (fuel : Nat) (stack : List (String × List FSTree)) (out : Snapshot),
      relWF out → relWF (indexLoop u lim fuel stack out) := by
  intro fuel
  induction fuel with
  | zero => intro stack out h; exact h
  | succ fuel ih =>
      intro stack out h
      match stack with
      | [] => exact h
      | (pre, cs) :: rest =>
          simp only [indexLoop]
          by_cases hl : out.length < lim
          · simp only [if_pos hl]
            apply ih
            intro e he
            rcases scanEntries_mem he with h' | h'
            · exact h e h'
            · rcases h' with ⟨c, _, rfl⟩
              exact entryInfo_rel u _ c
          · simpa [if_neg hl] using h

theorem index_relWF (u : Bool) (lim : Nat) (ts : List FSTree) : relWF (index_tree u lim ts) :=
  indexLoop_relWF u lim _ _ [] (by intro e he; simp at he)

theorem hashWFList_mem {cs : List FSTree} {c : FSTree}
    (h : hashWFListB cs = true) (hc : c ∈ cs) : FSTree.hashWFB c = true := by
  induction cs with
  | nil => simp at hc
  | cons c' rest ih =>
      rw [hashWFListB, Bool.and_eq_true] at h
      rcases List.mem_cons.mp hc with rfl | hc'
      · exact h.1
      · exact ih h.2 hc'

theorem entryInfo_hashOK {u : Bool} {rel : String} {c : FSTree}
    (h : FSTree.hashWFB c = true) : entryHashOK (FSTree.entryInfo u rel c) := by
  cases c with
  | file n sz mt hs =>
      rw [FSTree.hashWFB, bne_iff_ne] at h
      cases u <;> simp [FSTree.entryInfo, entryHashOK, h]
  | dir n sz mt cs => simp [FSTree.entryInfo, entryHashOK]

theorem dirPushes_hash {pre : String} {cs : List FSTree} {s : String × List FSTree}
    (h : hashWFListB cs = true) (hs : s ∈ dirPushes pre cs) : hashWFListB s.2 = true := by
  induction cs with
  | nil => simp [dirPushes] at hs
  | cons c rest ih =>
      rw [hashWFListB, Bool.and_eq_true] at h
      cases c with
      | file n sz mt hsh =>
          simp only [dirPushes, List.filterMap_cons] at hs
          exact ih h.2 hs
      | dir n sz mt cs' =>
          simp only [dirPushes, List.filterMap_cons, List.mem_cons] at hs
          rcases hs with rfl | hs
          · exact h.1
          · exact ih h.2 hs

theorem indexLoop_hashOK (u : Bool) (lim : Nat) :
    ∀ (fuel : Nat) (stack : List (String × List FSTree)) (out : Snapshot),
      (∀ e ∈ out, entryHashOK e.2) → (∀ s ∈ stack, hashWFListB s.2 = true) →
      ∀ e ∈ indexLoop u lim fuel stack out, entryHashOK e.2 := by
  intro fuel
  induction fuel with
  | zero => intro stack out h _ e he; exact h e he
  | succ fuel ih =>
      intro stack out h hstack e he
      match stack with
      | [] => exact h e he
      | (pre, cs) :: rest =>
          simp only [indexLoop] at he
          by_cases hl : out.length < lim
          · rw [if_pos hl] at he
            refine ih _ _ ?_ ?_ e he
            · intro e' he'
              rcases scanEntries_mem he' with h' | h'
              · exact h e' h'
              · rcases h' with ⟨c, hc, rfl⟩
                exact entryInfo_hashOK (hashWFList_mem (hstack _ (List.mem_cons_self _ _)) hc)
            · intro s hs
              rcases List.mem_append.mp hs with hs' | hs'
              · exact dirPushes_hash (hstack _ (List.mem_cons_self _ _)) (List.mem_reverse.mp hs')
              · exact hstack s (List.mem_cons_of_mem _ hs')
          · rw [if_neg hl] at he
            exact h e he

theorem index_hashOK {u : Bool} {lim : Nat} {ts : List FSTree}
    (h : hashWFListB ts = true) : ∀ e ∈ index_tree u lim ts, entryHashOK e.2 := by
  refine indexLoop_hashOK u lim _ _ [] (by intro e he; simp at he) ?_
  intro s hs
  simp only [List.mem_singleton] at hs
  subst hs
  exact h

/-! ## Sorting and counting lemmas for the four-way partition -/

theorem count_insertSorted (k a : String) (l : List String) :
    List.count k (insertSorted a l) = List.count k l + (if a == k then 1 else 0) := by
  induction l with
  | nil => simp [insertSorted, List.count_cons]
  | cons x xs ih =>
      rw [insertSorted]
      by_cases hax : a ≤ x
      · simp only [if_pos hax, List.count_cons]
      · simp only [if_neg hax, List.count_cons, ih]
        omega

theorem count_sortKeys (k : String) (l : List String) :
    List.count k (sortKeys l) = List.count k l := by
  induction l with
  | nil => rfl
  | cons x xs ih =>
      show List.count k (insertSorted x (sortKeys xs)) = _
      rw [count_insertSorted, ih, List.count_cons]

theorem mem_sortKeys {k : String} {l : List String} : k ∈ sortKeys l ↔ k ∈ l := by
  rw [← List.count_pos_iff, ← List.count_pos_iff, count_sortKeys]

theorem relCount_append_one (l : List FileInfo) (x : FileInfo) (k : String) :
    relCount (l ++ [x]) k = relCount l k + (if x.rel = k then 1 else 0) := by
  simp [relCount, List.countP_append, List.countP_cons]

theorem relCountP_append_one (l : List (FileInfo × FileInfo)) (x : FileInfo × FileInfo)
    (k : String) :
    relCountP (l ++ [x]) k = relCountP l k + (if x.1.rel = k then 1 else 0) := by
  simp [relCountP, List.countP_append, List.countP_cons]

theorem stepKey_keyCount {u : Bool} {L R : Snapshot} (acc : CompareResult) {k' : String}
    (k : String) (hL : relWF L) (hR : relWF R)
    (hmem : k' ∈ L.map Prod.fst ∨ k' ∈ R.map Prod.fst) :
    (stepKey u L R acc k').keyCount k = acc.keyCount k + (if k' = k then 1 else 0) := by
  cases hLk : lookupKey L k' with
  | none =>
      cases hRk : lookupKey R k' with
      | none =>
          exfalso
          rcases hmem with h | h
          · have := lookupKey_isSome_of_mem_fst h
            rw [hLk] at this
            simp at this
          · have := lookupKey_isSome_of_mem_fst h
            rw [hRk] at this
            simp at this
      | some b =>
          have hb : b.rel = k' := relWF_lookup hR hRk
          simp only [stepKey, hLk, hRk, CompareResult.keyCount, relCount_append_one, hb]
          omega
  | some a =>
      have ha : a.rel = k' := relWF_lookup hL hLk
      cases hRk : lookupKey R k' with
      | none =>
          simp only [stepKey, hLk, hRk, CompareResult.keyCount, relCount_append_one, ha]
          omega
      | some b =>
          by_cases hs : sameRecord u a b = true
          · simp only [stepKey, hLk, hRk, if_pos hs, CompareResult.keyCount,
              relCountP_append_one, ha]
            omega
          · simp only [stepKey, hLk, hRk, if_neg hs, CompareResult.keyCount,
              relCountP_append_one, ha]
            omega

theorem foldl_keyCount {u : Bool} {L R : Snapshot} (hL : relWF L) (hR : relWF R) :
    ∀ (keys : List String) (acc : CompareResult) (k : String),
      (∀ k' ∈ keys, k' ∈ L.map Prod.fst ∨ k' ∈ R.map Prod.fst) →
      (keys.foldl (stepKey u L R) acc).keyCount k = acc.keyCount k + List.count k keys := by
  intro keys
  induction keys with
  | nil => intro acc k _; simp
  | cons k' rest ih =>
      intro acc k hmem
      rw [List.foldl_cons, ih _ k (fun x hx => hmem x (List.mem_cons_of_mem _ hx)),
        stepKey_keyCount acc k hL hR (hmem k' (List.mem_cons_self _ _)), List.count_cons]
      have : (if (k' == k) = true then 1 else 0) = if k' = k then 1 else 0 := by
        simp [beq_iff_eq]
      omega

theorem compareSnapshots_keyCount {u : Bool} {L R : Snapshot} {k : String}
    (hL : relWF L) (hR : relWF R)
    (hmem : k ∈ L.map Prod.fst ∨ k ∈ R.map Prod.fst) :
    (compareSnapshots u L R).keyCount k = 1 := by
  rw [compareSnapshots, foldl_keyCount hL hR]
  · rw [count_sortKeys, List.count_dedup]
    have hk : k ∈ L.map Prod.fst ++ R.map Prod.fst := by
      rcases hmem with h | h
      · exact List.mem_append_left _ h
      · exact List.mem_append_right _ h
    simp [CompareResult.keyCount, relCount, relCountP, hk]
  · intro k' hk'
    have : k' ∈ L.map Prod.fst ++ R.map Prod.fst := List.mem_dedup.mp (mem_sortKeys.mp hk')
    exact List.mem_append.mp this

/-- C1: For snapshots produced by indexing, every relative path present in
the union of the two keyspaces appears in exactly one of the four result
sequences of `compare_dirs` — and exactly once there (completeness and mutual
exclusivity of the four-way partition). -/
theorem claim_C1 (u : Bool) (ts1 ts2 : List FSTree) (k : String)
    (hmem : k ∈ (index_tree u 200000 ts1).map Prod.fst ∨
            k ∈ (index_tree u 200000 ts2).map Prod.fst) :
    (compare_dirs u ts1 ts2).keyCount k = 1 :=
  compareSnapshots_keyCount (index_relWF u 200000 ts1) (index_relWF u 200000 ts2) hmem

/-- Witness for C1 at a concrete pair of trees: the key `"a"` is present on
both sides, the key `"b"` only on the left. -/
theorem claim_C1_witness :
    ((("a" : String) ∈ (index_tree true 200000
        [FSTree.file "a" 1 0 (some "h"), FSTree.file "b" 2 0 (some "g")]).map Prod.fst ∨
      ("a" : String) ∈ (index_tree true 200000 [FSTree.file "a" 1 0 (some "h")]).map Prod.fst) ∧
     (compare_dirs true [FSTree.file "a" 1 0 (some "h"), FSTree.file "b" 2 0 (some "g")]
        [FSTree.file "a" 1 0 (some "h")]).keyCount "a" = 1) ∧
    (compare_dirs true [FSTree.file "a" 1 0 (some "h"), FSTree.file "b" 2 0 (some "g")]
        [FSTree.file "a" 1 0 (some "h")]).keyCount "b" = 1 := by
  refine ⟨⟨Or.inl (by decide), ?_⟩, ?_⟩
  · exact claim_C1 true _ _ "a" (Or.inl (by decide))
  · exact claim_C1 true _ _ "b" (Or.inl (by decide))

/-! ## Membership lemmas for the classification fold -/

theorem stepKey_same_mono {u : Bool} {L R : Snapshot} {acc : CompareResult} {k' : String}
    {x : FileInfo × FileInfo} (h : x ∈ acc.same) : x ∈ (stepKey u L R acc k').same := by
  cases hLk : lookupKey L k' with
  | none =>
      cases hRk : lookupKey R k' with
      | none => simp only [stepKey, hLk, hRk]; exact h
      | some b => simp only [stepKey, hLk, hRk]; exact h
  | some a =>
      cases hRk : lookupKey R k' with
      | none => simp only [stepKey, hLk, hRk]; exact h
      | some b =>
          by_cases hs : sameRecord u a b = true
          · simp only [stepKey, hLk, hRk, if_pos hs]
            exact List.mem_append_left _ h
          · simp only [stepKey, hLk, hRk, if_neg hs]
            exact h

theorem foldl_same_mono {u : Bool} {L R : Snapshot} :
    ∀ (keys : List String) (acc : CompareResult) (x : FileInfo × FileInfo),
      x ∈ acc.same → x ∈ (keys.foldl (stepKey u L R) acc).same := by
  intro keys
  induction keys with
  | nil => intro acc x h; exact h
  | cons k' rest ih =>
      intro acc x h
      exact ih _ x (stepKey_same_mono h)

theorem foldl_same_of_mem {u : Bool} {L R : Snapshot} :
    ∀ (keys : List String) (acc : CompareResult) {k : String} {a b : FileInfo},
      k ∈ keys → lookupKey L k = some a → lookupKey R k = some b →
      sameRecord u a b = true → (a, b) ∈ (keys.foldl (stepKey u L R) acc).same := by
  intro keys
  induction keys with
  | nil => intro acc k a b h; simp at h
  | cons k' rest ih =>
      intro acc k a b hk hLa hRb hs
      rcases List.mem_cons.mp hk with rfl | hk'
      · rw [List.foldl_cons]
        apply foldl_same_mono
        simp only [stepKey, hLa, hRb, if_pos hs]
        exact List.mem_append_right _ (List.mem_singleton.mpr rfl)
      · exact ih _ hk' hLa hRb hs

theorem foldl_same_src {u : Bool} {L R : Snapshot} :
    ∀ (keys : List String) (acc : CompareResult) {x y : FileInfo},
      (x, y) ∈ (keys.foldl (stepKey u L R) acc).same →
      (x, y) ∈ acc.same ∨
        ∃ k ∈ keys, lookupKey L k = some x ∧ lookupKey R k = some y ∧
          sameRecord u x y = true := by
  intro keys
  induction keys with
  | nil => intro acc x y h; exact Or.inl h
  | cons k' rest ih =>
      intro acc x y h
      rw [List.foldl_cons] at h
      rcases ih _ h with h' | h'
      · cases hLk : lookupKey L k' with
        | none =>
            cases hRk : lookupKey R k' with
            | none => simp only [stepKey, hLk, hRk] at h'; exact Or.inl h'
            | some b => simp only [stepKey, hLk, hRk] at h'; exact Or.inl h'
        | some a =>
            cases hRk : lookupKey R k' with
            | none => simp only [stepKey, hLk, hRk] at h'; exact Or.inl h'
            | some b =>
                by_cases hs : sameRecord u a b = true
                · simp only [stepKey, hLk, hRk, if_pos hs] at h'
                  rcases List.mem_append.mp h' with h'' | h''
                  · exact Or.inl h''
                  · have hxy : (x, y) = (a, b) := List.mem_singleton.mp h''
                    cases hxy
                    exact Or.inr ⟨k', List.mem_cons_self _ _, hLk, hRk, hs⟩
                · simp only [stepKey, hLk, hRk, if_neg hs] at h'
                  exact Or.inl h'
      · rcases h' with ⟨k, hk, rest'⟩
        exact Or.inr ⟨k, List.mem_cons_of_mem _ hk, rest'⟩

/-- The per-key step appends nothing to `only_left`, `only_right` or
`different` when the key resolves to identically classified records on both
sides — the self-comparison workhorse. -/
theorem foldl_self_lists {u : Bool} {L : Snapshot} :
    ∀ (keys : List String) (acc : CompareResult),
      (∀ k ∈ keys, ∃ a, lookupKey L k = some a ∧ sameRecord u a a = true) →
      ((keys.foldl (stepKey u L L) acc).only_left = acc.only_left ∧
       (keys.foldl (stepKey u L L) acc).only_right = acc.only_right ∧
       (keys.foldl (stepKey u L L) acc).different = acc.different) := by
  intro keys
  induction keys with
  | nil => intro acc _; exact ⟨rfl, rfl, rfl⟩
  | cons k' rest ih =>
      intro acc h
      obtain ⟨a, hLa, hs⟩ := h k' (List.mem_cons_self _ _)
      rw [List.foldl_cons]
      have hstep : stepKey u L L acc k' =
          { acc with same := acc.same ++ [(a, a)] } := by
        simp only [stepKey, hLa, if_pos hs]
      rw [hstep]
      exact ih _ (fun k hk => h k (List.mem_cons_of_mem _ hk))

theorem sameRecord_self {u : Bool} {a : FileInfo}
    (h : a.is_dir = false → truthyStr a.sha256 = true) : sameRecord u a a = true := by
  cases hd : a.is_dir with
  | true => simp [sameRecord, hd]
  | false =>
      have ht := h hd
      cases u <;> simp [sameRecord, hd, ht]

/-- C7, amended: Comparing a directory to itself with `useHash = true`
yields empty `onlyLeft`, `onlyRight` and `differing`, *provided every file in
the snapshot hashed successfully* (a file whose hash degraded to null is
classified `differing` even against itself, per the rule verified as C3, so
the unconditional claim fails — see the counterexample). -/
theorem claim_C7 (ts : List FSTree)
    (h : ∀ e ∈ index_tree true 200000 ts, e.2.is_dir = false → truthyStr e.2.sha256 = true) :
    (compare_dirs true ts ts).only_left = [] ∧ (compare_dirs true ts ts).only_right = [] ∧
    (compare_dirs true ts ts).different = [] := by
  have key : ∀ k ∈ sortKeys (((index_tree true 200000 ts).map Prod.fst ++
      (index_tree true 200000 ts).map Prod.fst).dedup),
      ∃ a, lookupKey (index_tree true 200000 ts) k = some a ∧ sameRecord true a a = true := by
    intro k hk
    have hk2 : k ∈ (index_tree true 200000 ts).map Prod.fst := by
      have hm := List.mem_dedup.mp (mem_sortKeys.mp hk)
      rcases List.mem_append.mp hm with h' | h' <;> exact h'
    obtain ⟨a, ha⟩ := Option.isSome_iff_exists.mp (lookupKey_isSome_of_mem_fst hk2)
    refine ⟨a, ha, sameRecord_self ?_⟩
    intro hdir
    exact h (k, a) (lookupKey_mem ha) hdir
  have hfold := foldl_self_lists _ ⟨[], [], [], []⟩ key
  exact ⟨hfold.1, hfold.2.1, hfold.2.2⟩

/-- C7 counterexample: the claim as stated is false.  A directory holding a
single file whose hashing failed (null hash) compares to itself with a
nonempty `differing` list. -/
theorem claim_C7_counterexample :
    (compare_dirs true [FSTree.file "a" 1 0 none] [FSTree.file "a" 1 0 none]).different ≠ [] := by
  decide

/-- Witness for the amended C7 at a concrete tree whose files all hashed. -/
theorem claim_C7_witness :
    (∀ e ∈ index_tree true 200000
        [FSTree.file "a" 1 0 (some "h"), FSTree.dir "d" 0 0 [FSTree.file "b" 2 5 (some "g")]],
        e.2.is_dir = false → truthyStr e.2.sha256 = true) ∧
    ((compare_dirs true
        [FSTree.file "a" 1 0 (some "h"), FSTree.dir "d" 0 0 [FSTree.file "b" 2 5 (some "g")]]
        [FSTree.file "a" 1 0 (some "h"), FSTree.dir "d" 0 0 [FSTree.file "b" 2 5 (some "g")]]).only_left = [] ∧
     (compare_dirs true
        [FSTree.file "a" 1 0 (some "h"), FSTree.dir "d" 0 0 [FSTree.file "b" 2 5 (some "g")]]
        [FSTree.file "a" 1 0 (some "h"), FSTree.dir "d" 0 0 [FSTree.file "b" 2 5 (some "g")]]).only_right = [] ∧
     (compare_dirs true
        [FSTree.file "a" 1 0 (some "h"), FSTree.dir "d" 0 0 [FSTree.file "b" 2 5 (some "g")]]
        [FSTree.file "a" 1 0 (some "h"), FSTree.dir "d" 0 0 [FSTree.file "b" 2 5 (some "g")]]).different = []) :=
  ⟨by decide, claim_C7 _ (by decide)⟩

theorem truthy_iff_isSome {o : Option String} (h : o ≠ some "") :
    truthyStr o = true ↔ o.isSome = true := by
  cases o with
  | none => simp [truthyStr]
  | some s =>
      have : s ≠ "" := fun he => h (by rw [he])
      simp [truthyStr, this]

theorem sameRecord_file_iff {a b : FileInfo} (hda : a.is_dir = false) (hdb : b.is_dir = false)
    (hha : a.sha256 ≠ some "") (hhb : b.sha256 ≠ some "") :
    (sameRecord true a b = true ↔
      (a.size = b.size ∧ a.sha256.isSome ∧ b.sha256.isSome ∧ a.sha256 = b.sha256)) := by
  rw [sameRecord]
  simp [hda, hdb, truthy_iff_isSome hha, truthy_iff_isSome hhb, and_assoc]

/-- C3: With `useHash = true`, a key present on both sides whose two
records are both files is classified `identical` exactly when the sizes match,
both hashes are non-null and the hashes are equal; a null hash on either side
forces `differing`.  The hypotheses `hashWFListB` record that real sha256
digests are nonempty strings (64 hex characters), so Python's truthiness test
on the hash coincides with a null check. -/
theorem claim_C3 (ts1 ts2 : List FSTree) (k : String) (a b : FileInfo)
    (h1 : hashWFListB ts1 = true) (h2 : hashWFListB ts2 = true)
    (ha : lookupKey (index_tree true 200000 ts1) k = some a)
    (hb : lookupKey (index_tree true 200000 ts2) k = some b)
    (hda : a.is_dir = false) (hdb : b.is_dir = false) :
    ((a, b) ∈ (compare_dirs true ts1 ts2).same ↔
      (a.size = b.size ∧ a.sha256.isSome ∧ b.sha256.isSome ∧ a.sha256 = b.sha256)) := by
  have hha : a.sha256 ≠ some "" := index_hashOK h1 (k, a) (lookupKey_mem ha)
  have hhb : b.sha256 ≠ some "" := index_hashOK h2 (k, b) (lookupKey_mem hb)
  rw [← sameRecord_file_iff hda hdb hha hhb]
  constructor
  · intro hmem
    rcases foldl_same_src _ _ hmem with h' | h'
    · simp at h'
    · obtain ⟨k', _, hL', hR', hs⟩ := h'
      exact hs
  · intro hs
    have hk : k ∈ (index_tree true 200000 ts1).map Prod.fst :=
      List.mem_map.mpr ⟨(k, a), lookupKey_mem ha, rfl⟩
    apply foldl_same_of_mem _ _ _ ha hb hs
    exact mem_sortKeys.mpr (List.mem_dedup.mpr (List.mem_append_left _ hk))

/-- Witness for C3 at a concrete pair of trees: equal sizes and equal nonempty
hashes put the pair in `identical`. -/
theorem claim_C3_witness :
    (lookupKey (index_tree true 200000 [FSTree.file "a" 1 0 (some "h")]) "a" =
        some ⟨"a", 1, 0, false, some "h"⟩) ∧
    ((⟨"a", 1, 0, false, some "h"⟩, ⟨"a", 1, 0, false, some "h"⟩) ∈
        (compare_dirs true [FSTree.file "a" 1 0 (some "h")]
          [FSTree.file "a" 1 0 (some "h")]).same ↔
      ((⟨"a", 1, 0, false, some "h"⟩ : FileInfo).size =
          (⟨"a", 1, 0, false, some "h"⟩ : FileInfo).size ∧
        (some "h" : Option String).isSome ∧ (some "h" : Option String).isSome ∧
        (some "h" : Option String) = some "h")) :=
  ⟨by decide, claim_C3 _ _ "a" _ _ (by decide) (by decide) (by decide) (by decide) rfl rfl⟩

/-! ## The entry limit of `index_tree` (C8) -/

theorem fanoutList_mem {cs : List FSTree} {c : FSTree} (hc : c ∈ cs) :
    c.fanout ≤ fanoutList cs := by
  induction cs with
  | nil => simp at hc
  | cons c' rest ih =>
      rw [fanoutList]
      rcases List.mem_cons.mp hc with rfl | hc'
      · exact Nat.le_max_left _ _
      · exact Nat.le_trans (ih hc') (Nat.le_max_right _ _)

theorem dirPushes_fanout {pre : String} {cs : List FSTree} {s : String × List FSTree}
    (hs : s ∈ dirPushes pre cs) :
    s.2.length ≤ fanoutList cs ∧ fanoutList s.2 ≤ fanoutList cs := by
  induction cs with
  | nil => simp [dirPushes] at hs
  | cons c rest ih =>
      cases c with
      | file n sz mt hsh =>
          simp only [dirPushes, List.filterMap_cons] at hs
          have h' := ih hs
          rw [fanoutList]
          omega
      | dir n sz mt cs' =>
          simp only [dirPushes, List.filterMap_cons, List.mem_cons] at hs
          rcases hs with rfl | hs
          · constructor
            · show cs'.length ≤ fanoutList (FSTree.dir n sz mt cs' :: rest)
              rw [fanoutList, FSTree.fanout]
              omega
            · show fanoutList cs' ≤ fanoutList (FSTree.dir n sz mt cs' :: rest)
              rw [fanoutList, FSTree.fanout]
              omega
          · have h' := ih hs
            rw [fanoutList]
            omega

theorem indexLoop_length (u : Bool) (lim F : Nat) :
    ∀ (fuel : Nat) (stack : List (String × List FSTree)) (out : Snapshot),
      (∀ s ∈ stack, s.2.length ≤ F ∧ fanoutList s.2 ≤ F) →
      out.length ≤ lim - 1 + F →
      (indexLoop u lim fuel stack out).length ≤ lim - 1 + F := by
  intro fuel
  induction fuel with
  | zero => intro stack out _ h; exact h
  | succ fuel ih =>
      intro stack out hstack hout
      match stack with
      | [] => exact hout
      | (pre, cs) :: rest =>
          rw [indexLoop]
          by_cases hl : out.length < lim
          · rw [if_pos hl]
            refine ih _ _ ?_ ?_
            · intro s hs
              rcases List.mem_append.mp hs with hs' | hs'
              · have hd := dirPushes_fanout (List.mem_reverse.mp hs')
                have hcs := (hstack _ (List.mem_cons_self _ _)).2
                exact ⟨Nat.le_trans hd.1 hcs, Nat.le_trans hd.2 hcs⟩
              · exact hstack s (List.mem_cons_of_mem _ hs')
            · have hscan := scanEntries_length u pre cs out
              have hcs : cs.length ≤ F := (hstack _ (List.mem_cons_self _ _)).1
              omega
          · rw [if_neg hl]
            exact hout

/-- C8, amended: `index_tree` stops dequeuing directories once `limit`
entries have been recorded, but all entries of the directory being scanned
when the limit is crossed are still added.  Hence the snapshot holds at most
`limit - 1 + F` entries, where `F` bounds the number of direct children of any
scanned directory (root included) — not `limit` itself, which the result can
exceed (see the counterexample). -/
theorem claim_C8 (u : Bool) (limit : Nat) (ts : List FSTree) (_hlim : 1 ≤ limit) :
    (index_tree u limit ts).length ≤ limit - 1 + max ts.length (fanoutList ts) := by
  refine indexLoop_length u limit _ _ _ [] ?_ (by simp)
  intro s hs
  simp only [List.mem_singleton] at hs
  subst hs
  exact ⟨Nat.le_max_left _ _, Nat.le_max_right _ _⟩

/-- C8 counterexample: the claim as stated is false.  With `limit = 1`, a root
with two files yields a snapshot of 2 entries — the limit check only runs
between directories (compare.py line 50), so the directory being scanned is
always recorded in full. -/
theorem claim_C8_counterexample :
    ¬ (index_tree false 1 [FSTree.file "a" 1 0 none, FSTree.file "b" 1 0 none]).length ≤ 1 := by
  decide

/-- Witness for the amended C8. -/
theorem claim_C8_witness :
    1 ≤ 1 ∧
    (index_tree false 1 [FSTree.file "a" 1 0 none, FSTree.file "b" 1 0 none]).length ≤
      1 - 1 + max ([FSTree.file "a" 1 0 none, FSTree.file "b" 1 0 none].length)
        (fanoutList [FSTree.file "a" 1 0 none, FSTree.file "b" 1 0 none]) :=
  ⟨Nat.le_refl 1, claim_C8 false 1 _ (Nat.le_refl 1)⟩

/-! ## Decimal rendering: correctness and injectivity -/

theorem ofDigits10_natDigitsAux : ∀ (fuel n : Nat), n ≤ fuel →
    ofDigits10 (natDigitsAux fuel n) = n := by
  intro fuel
  induction fuel with
  | zero =>
      intro n hn
      interval_cases n
      rfl
  | succ fuel ih =>
      intro n hn
      match n with
      | 0 => rfl
      | n + 1 =>
          rw [natDigitsAux]
          show (n + 1) % 10 + 10 * ofDigits10 (natDigitsAux fuel ((n + 1) / 10)) = n + 1
          rw [ih ((n + 1) / 10) (by
            have := Nat.div_lt_self (Nat.succ_pos n) (by norm_num : (1 : Nat) < 10)
            omega)]
          exact Nat.mod_add_div (n + 1) 10

theorem natDigits_inj {m n : Nat} (h : natDigits m = natDigits n) : m = n := by
  have hm := ofDigits10_natDigitsAux m m (Nat.le_refl m)
  have hn := ofDigits10_natDigitsAux n n (Nat.le_refl n)
  rw [← hm, ← hn]
  exact congrArg ofDigits10 h

theorem natDigitsAux_lt10 : ∀ (fuel n : Nat), ∀ d ∈ natDigitsAux fuel n, d < 10 := by
  intro fuel
  induction fuel with
  | zero =>
      intro n d hd
      match n with
      | 0 => simp [natDigitsAux] at hd
  | succ fuel ih =>
      intro n d hd
      match n with
      | 0 => simp [natDigitsAux] at hd
      | n + 1 =>
          rw [natDigitsAux] at hd
          rcases List.mem_cons.mp hd with rfl | hd'
          · exact Nat.mod_lt _ (by norm_num)
          · exact ih _ d hd'

theorem digitChar_injOn : ∀ a, a < 10 → ∀ b, b < 10 → digitChar a = digitChar b → a = b := by
  decide

theorem mapDigit_inj : ∀ (l1 l2 : List Nat), (∀ x ∈ l1, x < 10) → (∀ x ∈ l2, x < 10) →
    l1.map digitChar = l2.map digitChar → l1 = l2 := by
  intro l1
  induction l1 with
  | nil =>
      intro l2 _ _ h
      cases l2 with
      | nil => rfl
      | cons y ys => simp at h
  | cons x xs ih =>
      intro l2 h1 h2 h
      cases l2 with
      | nil => simp at h
      | cons y ys =>
          simp only [List.map_cons, List.cons.injEq] at h
          have hx : x = y := digitChar_injOn x (h1 x (List.mem_cons_self _ _)) y
            (h2 y (List.mem_cons_self _ _)) h.1
          rw [hx, ih ys (fun z hz => h1 z (List.mem_cons_of_mem _ hz))
            (fun z hz => h2 z (List.mem_cons_of_mem _ hz)) h.2]

theorem natRepr_inj_pos {m n : Nat} (hm : 1 ≤ m) (hn : 1 ≤ n)
    (h : natRepr m = natRepr n) : m = n := by
  rw [natRepr, natRepr, if_neg (by omega), if_neg (by omega)] at h
  have hd : ((natDigits m).map digitChar).reverse = ((natDigits n).map digitChar).reverse :=
    congrArg String.data h
  rw [List.reverse_inj] at hd
  exact natDigits_inj (mapDigit_inj _ _ (natDigitsAux_lt10 m m) (natDigitsAux_lt10 n n) hd)

/-! ## Filesystem map lemmas -/

theorem fsGet_fsSet (fs : FS) (q : Path) (v : Node) (p : Path) :
    fsGet (fsSet fs q v) p = if p = q then some v else fsGet fs p := by
  induction fs with
  | nil =>
      by_cases hpq : p = q
      · simp [fsSet, fsGet, hpq]
      · have hqp : ¬ q = p := fun h => hpq h.symm
        simp [fsSet, fsGet, hpq, hqp]
  | cons e rest ih =>
      by_cases he : e.1 = q
      · rw [fsSet, if_pos he]
        by_cases hpq : p = q
        · simp [fsGet, hpq]
        · rw [fsGet, if_neg (fun h => hpq h.symm), if_neg hpq, fsGet,
            if_neg (fun h : e.1 = p => hpq (he ▸ h ▸ rfl))]
      · rw [fsSet, if_neg he]
        by_cases hep : e.1 = p
        · have hpq : ¬ p = q := fun h => he (by rw [hep, h])
          rw [fsGet, if_pos hep, if_neg hpq, fsGet, if_pos hep]
        · rw [fsGet, if_neg hep, ih]
          by_cases hpq : p = q
          · rw [if_pos hpq, if_pos hpq]
          · rw [if_neg hpq, if_neg hpq, fsGet, if_neg hep]

theorem fsGet_mem {fs : FS} {p : Path} {v : Node} (h : fsGet fs p = some v) : (p, v) ∈ fs := by
  induction fs with
  | nil => simp [fsGet] at h
  | cons e rest ih =>
      obtain ⟨e1, e2⟩ := e
      by_cases he : e1 = p
      · subst he
        rw [fsGet, if_pos rfl] at h
        cases h
        exact List.mem_cons_self _ _
      · rw [fsGet, if_neg he] at h
        exact List.mem_cons_of_mem _ (ih h)

/-! ## The probe loop: shape, freeness, minimality -/

theorem probeFrom_shape (fs : FS) (mk : Nat → Path) :
    ∀ (b i : Nat), ∃ j, i ≤ j ∧ probeFrom fs mk b i = mk j := by
  intro b
  induction b with
  | zero => intro i; exact ⟨i, Nat.le_refl i, rfl⟩
  | succ b ih =>
      intro i
      by_cases hE : fsExists fs (mk i) = true
      · obtain ⟨j, hij, hpr⟩ := ih (i + 1)
        exact ⟨j, by omega, by rw [probeFrom, if_pos hE]; exact hpr⟩
      · exact ⟨i, Nat.le_refl i, by rw [probeFrom, if_neg hE]⟩

theorem probeFrom_least (fs : FS) (mk : Nat → Path) :
    ∀ (b i : Nat), (∃ j, i ≤ j ∧ j < i + b ∧ fsExists fs (mk j) = false) →
      ∃ j, i ≤ j ∧ probeFrom fs mk b i = mk j ∧ fsExists fs (mk j) = false ∧
        ∀ l, i ≤ l → l < j → fsExists fs (mk l) = true := by
  intro b
  induction b with
  | zero =>
      intro i ⟨j, hij, hlt, _⟩
      omega
  | succ b ih =>
      intro i hex
      by_cases hE : fsExists fs (mk i) = true
      · obtain ⟨j, hij, hlt, hfree⟩ := hex
        have hji : j ≠ i := by
          intro h
          rw [h] at hfree
          rw [hE] at hfree
          cases hfree
        obtain ⟨j', hij', hpr', hfree', hmin'⟩ := ih (i + 1) ⟨j, by omega, by omega, hfree⟩
        refine ⟨j', by omega, by rw [probeFrom, if_pos hE]; exact hpr', hfree', ?_⟩
        intro l hl1 hl2
        by_cases hli : l = i
        · rw [hli]; exact hE
        · exact hmin' l (by omega) hl2
      · have hEf : fsExists fs (mk i) = false := by
          cases hfe : fsExists fs (mk i)
          · rfl
          · exact absurd hfe hE
        refine ⟨i, Nat.le_refl i, by rw [probeFrom, if_neg hE], hEf, ?_⟩
        intro l hl1 hl2
        omega

/-- Pigeonhole: among the first `fs.length + 1` candidates of an injective
numbering, at least one path is free — the Python probe loops (ops.py lines
58-62, 68-72, 123-127, 138-142) always terminate. -/
theorem exists_free (fs : FS) (mk : Nat → Path)
    (hinj : ∀ i j, 1 ≤ i → 1 ≤ j → mk i = mk j → i = j) :
    ∃ j, 1 ≤ j ∧ j ≤ fs.length + 1 ∧ fsExists fs (mk j) = false := by
  by_contra hcon
  push_neg at hcon
  have hall : ∀ j, 1 ≤ j → j ≤ fs.length + 1 → fsExists fs (mk j) = true := by
    intro j h1 h2
    exact Bool.ne_false_iff.mp (hcon j h1 h2)
  have hnodup : ((List.range (fs.length + 1)).map (fun t => mk (t + 1))).Nodup := by
    refine List.Nodup.map_on ?_ (List.nodup_range _)
    intro x _ y _ hxy
    have := hinj (x + 1) (y + 1) (by omega) (by omega) hxy
    omega
  have hsub : ∀ c ∈ (List.range (fs.length + 1)).map (fun t => mk (t + 1)),
      c ∈ fs.map Prod.fst := by
    intro c hc
    obtain ⟨t, ht, rfl⟩ := List.mem_map.mp hc
    have hex := hall (t + 1) (by omega) (by
      have := List.mem_range.mp ht
      omega)
    obtain ⟨v, hv⟩ := Option.isSome_iff_exists.mp hex
    exact List.mem_map.mpr ⟨(mk (t + 1), v), fsGet_mem hv, rfl⟩
  have hcard1 : ((List.range (fs.length + 1)).map (fun t => mk (t + 1))).toFinset.card =
      fs.length + 1 := by
    rw [List.toFinset_card_of_nodup hnodup, List.length_map, List.length_range]
  have hcard2 : ((List.range (fs.length + 1)).map (fun t => mk (t + 1))).toFinset.card ≤
      fs.length := by
    have hsub' : ((List.range (fs.length + 1)).map (fun t => mk (t + 1))).toFinset ⊆
        (fs.map Prod.fst).toFinset := by
      intro c hc
      exact List.mem_toFinset.mpr (hsub c (List.mem_toFinset.mp hc))
    calc ((List.range (fs.length + 1)).map (fun t => mk (t + 1))).toFinset.card
        ≤ (fs.map Prod.fst).toFinset.card := Finset.card_le_card hsub'
      _ ≤ (fs.map Prod.fst).length := List.toFinset_card_le _
      _ = fs.length := List.length_map _ _
  omega

/-! ## Injectivity of the numbered candidates -/

theorem strCand_inj {s1 s2 : String} {i j : Nat} (hi : 1 ≤ i) (hj : 1 ≤ j)
    (h : s1 ++ " (" ++ natRepr i ++ ")" ++ s2 = s1 ++ " (" ++ natRepr j ++ ")" ++ s2) :
    i = j := by
  have hd := congrArg String.data h
  simp only [String.data_append, List.append_assoc] at hd
  have hd1 := List.append_cancel_left hd
  have hd2 := List.append_cancel_left hd1
  rw [← List.append_assoc, ← List.append_assoc] at hd2
  have hd3 := List.append_cancel_right (List.append_cancel_right hd2)
  exact natRepr_inj_pos hi hj (String.ext hd3)

theorem mkFileCand_inj {p : Path} {i j : Nat} (hi : 1 ≤ i) (hj : 1 ≤ j)
    (h : mkFileCand p i = mkFileCand p j) : i = j := by
  rw [mkFileCand, mkFileCand] at h
  have h1 := List.append_cancel_left h
  have h2 : (splitStem (lastName p)).1 ++ " (" ++ natRepr i ++ ")" ++ (splitStem (lastName p)).2 =
      (splitStem (lastName p)).1 ++ " (" ++ natRepr j ++ ")" ++ (splitStem (lastName p)).2 :=
    List.mem_singleton.mp (h1 ▸ List.mem_singleton.mpr rfl)
  exact strCand_inj hi hj h2

theorem mkDirCand_inj {p : Path} {i j : Nat} (hi : 1 ≤ i) (hj : 1 ≤ j)
    (h : mkDirCand p i = mkDirCand p j) : i = j := by
  rw [mkDirCand, mkDirCand] at h
  have h1 := List.append_cancel_left h
  have h2 : lastName p ++ " (" ++ natRepr i ++ ")" = lastName p ++ " (" ++ natRepr j ++ ")" :=
    List.mem_singleton.mp (h1 ▸ List.mem_singleton.mpr rfl)
  have h3 : lastName p ++ " (" ++ natRepr i ++ ")" ++ "" =
      lastName p ++ " (" ++ natRepr j ++ ")" ++ "" := by
    rw [h2]
  exact strCand_inj hi hj h3

/-- The probe with bound `fs.length + 1` starting at 1 returns the candidate
with the *smallest* free index, for any injective candidate numbering. -/
theorem probe_min (fs : FS) (mkc : Nat → Path)
    (hinj : ∀ i j, 1 ≤ i → 1 ≤ j → mkc i = mkc j → i = j) :
    ∃ i, 1 ≤ i ∧ probeFrom fs mkc (fs.length + 1) 1 = mkc i ∧
      fsExists fs (mkc i) = false ∧ ∀ j, 1 ≤ j → j < i → fsExists fs (mkc j) = true := by
  obtain ⟨j, hj1, hj2, hjf⟩ := exists_free fs mkc hinj
  obtain ⟨i, hi1, hpr, hfree, hmin⟩ :=
    probeFrom_least fs mkc (fs.length + 1) 1 ⟨j, hj1, by omega, hjf⟩
  exact ⟨i, hi1, hpr, hfree, hmin⟩

/-- C5: The PathUniquifier contract: a free candidate path is returned
unchanged (also by `unique_path`); an occupied one — whatever the occupant's
type, since only existence is probed — becomes the numbered candidate with the
smallest positive index whose path is free, probing in ascending order, the
suffix placed before the extension for `kind = file` (`mkFileCand`) and after
the whole name for `kind = directory` (`mkDirCand`). -/
theorem claim_C5 (fs : FS) (p : Path) (k : PathKind) :
    (fsExists fs p = false → uniquify fs p k = p ∧ unique_path fs p = p) ∧
    (fsExists fs p = true → ∃ i, 1 ≤ i ∧ uniquify fs p k = mkCand k p i ∧
      fsExists fs (mkCand k p i) = false ∧
      ∀ j, 1 ≤ j → j < i → fsExists fs (mkCand k p j) = true) := by
  constructor
  · intro h
    constructor
    · rw [uniquify.eq_def, if_pos h]
    · rw [unique_path, if_pos h]
  · intro h
    have hne : ¬ fsExists fs p = false := by rw [h]; simp
    rw [uniquify.eq_def, if_neg hne]
    cases k with
    | file =>
        obtain ⟨i, hi1, hpr, hfree, hmin⟩ :=
          probe_min fs (mkFileCand p) (fun i j hi hj hij => mkFileCand_inj hi hj hij)
        exact ⟨i, hi1, hpr, hfree, hmin⟩
    | directory =>
        obtain ⟨i, hi1, hpr, hfree, hmin⟩ :=
          probe_min fs (mkDirCand p) (fun i j hi hj hij => mkDirCand_inj hi hj hij)
        exact ⟨i, hi1, hpr, hfree, hmin⟩

/-- Witness for C5: under `a.txt` occupied and `a (1).txt` occupied the probe
returns index 2; a free candidate (`b.txt`) comes back unchanged. -/
theorem claim_C5_witness :
    (fsExists [(["a.txt"], Node.file "x"), (["a (1).txt"], Node.file "y")] ["a.txt"] = true ∧
      ∃ i, 1 ≤ i ∧
        uniquify [(["a.txt"], Node.file "x"), (["a (1).txt"], Node.file "y")] ["a.txt"]
          PathKind.file =
          mkCand PathKind.file ["a.txt"] i ∧
        fsExists [(["a.txt"], Node.file "x"), (["a (1).txt"], Node.file "y")]
          (mkCand PathKind.file ["a.txt"] i) = false ∧
        ∀ j, 1 ≤ j → j < i →
          fsExists [(["a.txt"], Node.file "x"), (["a (1).txt"], Node.file "y")]
            (mkCand PathKind.file ["a.txt"] j) = true) ∧
    (fsExists [(["a.txt"], Node.file "x"), (["a (1).txt"], Node.file "y")] ["b.txt"] = false ∧
      (uniquify [(["a.txt"], Node.file "x"), (["a (1).txt"], Node.file "y")] ["b.txt"]
          PathKind.directory = ["b.txt"] ∧
        unique_path [(["a.txt"], Node.file "x"), (["a (1).txt"], Node.file "y")] ["b.txt"] =
          ["b.txt"])) :=
  ⟨⟨by decide, (claim_C5 _ ["a.txt"] PathKind.file).2 (by decide)⟩,
   ⟨by decide, (claim_C5 _ ["b.txt"] PathKind.directory).1 (by decide)⟩⟩

/-! ## Frame reasoning for `merge_copy_dir` (C2) -/

theorem frameOK_rfl (d : Path) (fs : FS) : frameOK d fs fs :=
  ⟨fun _ _ h => h, fun _ h => absurd rfl h⟩

theorem frameOK_trans {d : Path} {fs1 fs2 fs3 : FS}
    (h12 : frameOK d fs1 fs2) (h23 : frameOK d fs2 fs3) : frameOK d fs1 fs3 := by
  refine ⟨fun p n h => h23.1 p n (h12.1 p n h), fun p hne => ?_⟩
  by_cases h2 : fsGet fs2 p = fsGet fs1 p
  · exact h23.2 p (fun h3 => hne (h3.trans h2))
  · exact h12.2 p h2

theorem frameOK_of_sub {d d' : Path} {fs fs' : FS} (hdd : d <+: d')
    (h : frameOK d' fs fs') : frameOK d fs fs' := by
  refine ⟨h.1, fun p hne => ?_⟩
  rcases h.2 p hne with hp | hp
  · exact Or.inl (hdd.trans hp)
  · rcases List.prefix_or_prefix_of_prefix hp hdd with hp' | hp'
    · exact Or.inr hp'
    · exact Or.inl hp'

theorem fsExists_false_get {fs : FS} {p : Path} (h : fsExists fs p = false) :
    fsGet fs p = none := by
  rw [fsExists] at h
  cases hg : fsGet fs p
  · rfl
  · rw [hg] at h
    cases h

theorem fsSet_fresh_frame {d : Path} {fs : FS} {q : Path} {v : Node}
    (hfree : fsGet fs q = none) (hq : d <+: q ∨ q <+: d) : frameOK d fs (fsSet fs q v) := by
  constructor
  · intro p n h
    rw [fsGet_fsSet]
    by_cases hpq : p = q
    · rw [hpq] at h
      rw [hfree] at h
      cases h
    · rw [if_neg hpq]
      exact h
  · intro p hne
    rw [fsGet_fsSet] at hne
    by_cases hpq : p = q
    · rw [hpq]
      exact hq
    · rw [if_neg hpq] at hne
      exact absurd rfl hne

theorem mkdirP_frame (fs : FS) (d : Path) : frameOK d fs (mkdirP fs d) := by
  rw [mkdirP]
  have hgen : ∀ (l : List Path) (fs0 : FS), (∀ q ∈ l, q <+: d) →
      frameOK d fs0 (l.foldl (fun acc q => if fsExists acc q then acc else fsSet acc q .dir) fs0) := by
    intro l
    induction l with
    | nil => intro fs0 _; exact frameOK_rfl d fs0
    | cons q rest ih =>
        intro fs0 hq
        rw [List.foldl_cons]
        refine frameOK_trans ?_ (ih _ (fun r hr => hq r (List.mem_cons_of_mem _ hr)))
        by_cases hE : fsExists fs0 q = true
        · rw [if_pos hE]
          exact frameOK_rfl d fs0
        · have hEf : fsExists fs0 q = false := by
            cases hfe : fsExists fs0 q
            · rfl
            · exact absurd hfe hE
          rw [if_neg hE]
          exact fsSet_fresh_frame (fsExists_false_get hEf)
            (Or.inr (hq q (List.mem_cons_self _ _)))
  refine hgen _ fs ?_
  intro q hq
  obtain ⟨i, _, rfl⟩ := List.mem_map.mp hq
  exact List.take_prefix _ _

theorem unique_file_path_shape (fs : FS) (p : Path) :
    ∃ s, unique_file_path fs p = parentOf p ++ [s] := by
  obtain ⟨j, _, hpr⟩ := probeFrom_shape fs (mkFileCand p) (fs.length + 1) 1
  exact ⟨_, by rw [unique_file_path, hpr, mkFileCand]⟩

theorem unique_dir_path_shape (fs : FS) (p : Path) :
    ∃ s, unique_dir_path fs p = parentOf p ++ [s] := by
  obtain ⟨j, _, hpr⟩ := probeFrom_shape fs (mkDirCand p) (fs.length + 1) 1
  exact ⟨_, by rw [unique_dir_path, hpr, mkDirCand]⟩

theorem unique_file_path_free (fs : FS) (p : Path) :
    fsExists fs (unique_file_path fs p) = false := by
  obtain ⟨i, _, hpr, hfree, _⟩ :=
    probe_min fs (mkFileCand p) (fun i j hi hj hij => mkFileCand_inj hi hj hij)
  rw [unique_file_path, hpr]
  exact hfree

theorem mergeChildStep_frame {src dst : Path} {n : String} {fs : FS}
    (rec : FS → Path → Path → FS)
    (hrec : ∀ (fs' : FS) (s' d' : Path), frameOK d' fs' (rec fs' s' d')) :
    frameOK dst fs (mergeChildStep rec src dst fs n) := by
  rw [mergeChildStep]
  by_cases hdir : isDirFS fs (src ++ [n]) = true
  · rw [if_pos hdir]
    set dstItem2 := if fsExists fs (dst ++ [n]) && isFileFS fs (dst ++ [n])
        then unique_dir_path fs (dst ++ [n]) else dst ++ [n] with hd2
    have hsub : dst <+: dstItem2 := by
      rw [hd2]
      by_cases hc : (fsExists fs (dst ++ [n]) && isFileFS fs (dst ++ [n])) = true
      · rw [if_pos hc]
        obtain ⟨s, hs⟩ := unique_dir_path_shape fs (dst ++ [n])
        rw [hs]
        have : parentOf (dst ++ [n]) = dst := List.dropLast_concat
        rw [this]
        exact List.prefix_append _ _
      · rw [if_neg hc]
        exact List.prefix_append _ _
    exact frameOK_of_sub hsub (hrec fs (src ++ [n]) dstItem2)
  · rw [if_neg hdir]
    set dstItem2 := if fsExists fs (dst ++ [n]) then unique_file_path fs (dst ++ [n])
        else dst ++ [n] with hd2
    have hsub : dst <+: dstItem2 := by
      rw [hd2]
      by_cases hc : fsExists fs (dst ++ [n]) = true
      · rw [if_pos hc]
        obtain ⟨s, hs⟩ := unique_file_path_shape fs (dst ++ [n])
        rw [hs]
        have : parentOf (dst ++ [n]) = dst := List.dropLast_concat
        rw [this]
        exact List.prefix_append _ _
      · rw [if_neg hc]
        exact List.prefix_append _ _
    have hfree : fsGet fs dstItem2 = none := by
      rw [hd2]
      by_cases hc : fsExists fs (dst ++ [n]) = true
      · rw [if_pos hc]
        exact fsExists_false_get (unique_file_path_free fs (dst ++ [n]))
      · rw [if_neg hc]
        refine fsExists_false_get ?_
        cases hfe : fsExists fs (dst ++ [n])
        · rfl
        · exact absurd hfe hc
    cases hg : fsGet fs (src ++ [n]) with
    | none => exact frameOK_rfl dst fs
    | some v =>
        cases v with
        | file c => exact fsSet_fresh_frame hfree (Or.inl hsub)
        | dir => exact frameOK_rfl dst fs

theorem mergeChildren_frame {src dst : Path} (rec : FS → Path → Path → FS)
    (hrec : ∀ (fs' : FS) (s' d' : Path), frameOK d' fs' (rec fs' s' d')) :
    ∀ (names : List String) (fs : FS),
      frameOK dst fs (names.foldl (mergeChildStep rec src dst) fs) := by
  intro names
  induction names with
  | nil => intro fs; exact frameOK_rfl dst fs
  | cons n rest ih =>
      intro fs
      rw [List.foldl_cons]
      exact frameOK_trans (mergeChildStep_frame rec hrec) (ih _)

theorem merge_copy_dir_frame :
    ∀ (fuel : Nat) (fs : FS) (src dst : Path), frameOK dst fs (merge_copy_dir fuel fs src dst) := by
  intro fuel
  induction fuel with
  | zero => intro fs src dst; exact frameOK_rfl dst fs
  | succ fuel ih =>
      intro fs src dst
      rw [merge_copy_dir, mergeGo]
      by_cases hdir : isDirFS fs src = true
      · rw [if_pos hdir]
        exact frameOK_trans (mkdirP_frame fs dst) (mergeChildren_frame _ ih _ _)
      · rw [if_neg hdir]
        exact frameOK_rfl dst fs

/-- C2, amended: (1) Unconditionally, the merge never deletes,
overwrites or mutates *any* pre-existing entry — at the destination, in the
source, anywhere: every entry of the initial filesystem survives with its
exact content.  (2) When neither of source and destination is an
ancestor-or-equal of the other, the source tree is moreover entirely
unchanged — nothing is added under it either.  The unconditional "source tree
is unchanged" of the original claim is false: with the destination *inside*
the source tree the merge copies new entries into the source (and recurses
until the recursion limit); see the counterexample. -/
theorem claim_C2 (fuel : Nat) (fs : FS) (src dst : Path) :
    (∀ p n, fsGet fs p = some n → fsGet (merge_copy_dir fuel fs src dst) p = some n) ∧
    (¬ src <+: dst → ¬ dst <+: src →
      ∀ p, src <+: p → fsGet (merge_copy_dir fuel fs src dst) p = fsGet fs p) := by
  have hframe := merge_copy_dir_frame fuel fs src dst
  refine ⟨hframe.1, fun hsd hds p hp => ?_⟩
  by_cases heq : fsGet (merge_copy_dir fuel fs src dst) p = fsGet fs p
  · exact heq
  · rcases hframe.2 p heq with hc | hc
    · rcases List.prefix_or_prefix_of_prefix hp hc with h' | h'
      · exact absurd h' hsd
      · exact absurd h' hds
    · exact absurd (hp.trans hc) hsd

/-- C2 counterexample: merging `/a` into `/a/b` (destination inside the
source) creates `/a/b/b` — an entry inside the source tree that did not exist
before, so the merge does mutate the source tree. -/
theorem claim_C2_counterexample :
    (["a"] : Path) <+: ["a", "b", "b"] ∧
    fsGet (merge_copy_dir 3 [(["a"], Node.dir), (["a", "b"], Node.dir)] ["a"] ["a", "b"])
        ["a", "b", "b"] ≠
      fsGet [(["a"], Node.dir), (["a", "b"], Node.dir)] ["a", "b", "b"] := by
  constructor
  · exact ⟨["b", "b"], rfl⟩
  · decide

/-- Witness for the amended C2 on a merge of disjoint trees: the pre-existing
source file keeps its content, and the source path is untouched. -/
theorem claim_C2_witness :
    fsGet (merge_copy_dir 5
        [(["s"], Node.dir), (["s", "x"], Node.file "1"), (["d"], Node.dir)] ["s"] ["d"])
        ["s", "x"] = some (Node.file "1") ∧
    fsGet (merge_copy_dir 5
        [(["s"], Node.dir), (["s", "x"], Node.file "1"), (["d"], Node.dir)] ["s"] ["d"])
        ["s", "x"] =
      fsGet [(["s"], Node.dir), (["s", "x"], Node.file "1"), (["d"], Node.dir)] ["s", "x"] :=
  ⟨(claim_C2 5 _ ["s"] ["d"]).1 ["s", "x"] (Node.file "1") (by decide),
   (claim_C2 5 _ ["s"] ["d"]).2 (by decide) (by decide) ["s", "x"] (by decide)⟩

/-! ## The batch-rename planner (C4, C6, C9, C10) -/

theorem dedup_length_iff {α : Type} [DecidableEq α] (l : List α) :
    l.dedup.length = l.length ↔ l.Nodup := by
  constructor
  · intro h
    have he := (List.dedup_sublist l).eq_of_length h
    rw [← he]
    exact List.nodup_dedup l
  · intro h
    rw [List.dedup_eq_self.mpr h]

/-- Decomposition of a successful `build_plan` run into its three phases. -/
theorem build_plan_ok_parts {ro : ReOracle} {fs : FS} {paths : List Path}
    {mode a0 b0 t0 : String} {start step : Int} {plan : List RenamePlanItem}
    (h : build_plan ro fs paths mode a0 b0 t0 start step = .ok plan) :
    planLoop ro mode (pyStrip a0) (pyStrip b0) (pyStrip t0) step start paths = .ok plan ∧
    (plan.map (fun it => it.dst)).dedup.length = (plan.map (fun it => it.dst)).length ∧
    plan.find? (fun it => fsExists fs it.dst && it.dst != it.src) = none := by
  rw [build_plan] at h
  cases hv : validateParams ro mode (pyStrip a0) (pyStrip b0) (pyStrip t0) with
  | error e => simp only [hv] at h; exact Except.noConfusion h
  | ok u =>
      simp only [hv] at h
      cases hp : planLoop ro mode (pyStrip a0) (pyStrip b0) (pyStrip t0) step start paths with
      | error e => simp only [hp] at h; exact Except.noConfusion h
      | ok out =>
          simp only [hp] at h
          by_cases hdup : (out.map (fun it => it.dst)).dedup.length =
              (out.map (fun it => it.dst)).length
          · rw [if_neg (by omega)] at h
            cases hf : out.find? (fun it => fsExists fs it.dst && it.dst != it.src) with
            | some w =>
                simp only [hf] at h
                exact Except.noConfusion h
            | none =>
                simp only [hf, Except.ok.injEq] at h
                subst h
                exact ⟨rfl, hdup, hf⟩
          · rw [if_pos (by omega)] at h
            cases h

/-- The template-mode stem transform always succeeds and is
`_apply_template` at the current counter. -/
theorem newStemFor_template (ro : ReOracle) (a b template : String) (idx : Int) (stem : String) :
    newStemFor ro "template" a b template idx stem =
      .ok (apply_template idx (if template ≠ "" then template else b)) := by
  rw [newStemFor, if_neg (by decide), if_neg (by decide), if_neg (by decide),
    if_neg (by decide), if_pos rfl]

/-- C9: In template mode the `k`-th generated destination (input order,
`k` from 0) keeps its source and extension and has stem
`_apply_template` of the counter `idx + k·step` applied to the effective
template (the template field when nonempty, else B) — i.e. the template with
every placeholder replaced by the counter value, zero-padded to the requested
width (`apply_template` implements exactly that for the fixed placeholder
pattern); the destination is the pathlib join of the source's parent with the
generated name (one component of that parent whenever the rendered template is
separator-free, as in the `file_{n:03}` example of the witness). -/
theorem claim_C9 (ro : ReOracle) (a b template : String) (step : Int) :
    ∀ (ps : List Path) (idx : Int) (out : List RenamePlanItem),
      planLoop ro "template" a b template step idx ps = .ok out →
      out.length = ps.length ∧
      ∀ (k : Nat) (p : Path), ps.get? k = some p →
        out.get? k = some ⟨p, pathlibJoin p.dropLast
          (apply_template (idx + (k : Int) * step) (if template ≠ "" then template else b) ++
            (splitStem (lastName p)).2)⟩ := by
  intro ps
  induction ps with
  | nil =>
      intro idx out h
      rw [planLoop] at h
      cases h
      exact ⟨rfl, fun k p hp => by simp at hp⟩
  | cons p ps' ih =>
      intro idx out h
      rw [planLoop, newStemFor_template] at h
      cases hrec : planLoop ro "template" a b template step (idx + step) ps' with
      | error e => rw [hrec] at h; cases h
      | ok rest =>
          rw [hrec] at h
          cases h
          obtain ⟨hlen, hget⟩ := ih (idx + step) rest hrec
          refine ⟨by simp [hlen], ?_⟩
          intro k q hq
          match k with
          | 0 =>
              rw [List.get?_cons_zero] at hq
              cases hq
              rw [List.get?_cons_zero]
              have harith : idx + ((0 : Nat) : Int) * step = idx := by push_cast; ring
              rw [harith]
              rfl
          | k + 1 =>
              rw [List.get?_cons_succ] at hq
              rw [List.get?_cons_succ]
              have harith : idx + step + (k : Int) * step = idx + ((k + 1 : Nat) : Int) * step := by
                push_cast
                ring
              rw [← harith]
              exact hget k q hq

/-- Witness for C9: template `file_{n:03}`, start 1, step 1 over three paths
yields stems `file_001`, `file_002`, `file_003` with each source's extension
preserved. -/
theorem claim_C9_witness :
    ([⟨["d", "x.txt"], ["d", "file_001.txt"]⟩, ⟨["d", "y.md"], ["d", "file_002.md"]⟩,
        ⟨["d", "z.txt"], ["d", "file_003.txt"]⟩] : List RenamePlanItem).length =
      [["d", "x.txt"], ["d", "y.md"], ["d", "z.txt"]].length ∧
    ∀ (k : Nat) (p : Path), [["d", "x.txt"], ["d", "y.md"], ["d", "z.txt"]].get? k = some p →
      ([⟨["d", "x.txt"], ["d", "file_001.txt"]⟩, ⟨["d", "y.md"], ["d", "file_002.md"]⟩,
          ⟨["d", "z.txt"], ["d", "file_003.txt"]⟩] : List RenamePlanItem).get? k =
        some ⟨p, pathlibJoin p.dropLast
          (apply_template ((1 : Int) + (k : Int) * 1)
              (if ("file_\x7bn:03\x7d" : String) ≠ "" then "file_\x7bn:03\x7d" else "") ++
            (splitStem (lastName p)).2)⟩ :=
  claim_C9 ⟨fun _ => true, fun _ _ s => s⟩ "" "" "file_\x7bn:03\x7d" 1
    [["d", "x.txt"], ["d", "y.md"], ["d", "z.txt"]] 1 _ (by decide)

/-- C4: After all destinations are generated (validation passed, the
generation loop succeeded), `build_plan` fails with the duplicate-destination
conflict when any two generated destinations coincide, and with the
existing-destination conflict when some destination exists on disk and is not
its own source (self-rename allowed) — executing no rename in either case
(`build_plan` performs no filesystem mutation at all: it only returns the plan
or the error).  Consequently a returned plan has pairwise-distinct
destinations, none of which collides with a pre-existing path other than its
own source. -/
theorem claim_C4 (ro : ReOracle) (fs : FS) (paths : List Path) (mode a0 b0 t0 : String)
    (start step : Int) :
    (∀ out, validateParams ro mode (pyStrip a0) (pyStrip b0) (pyStrip t0) = .ok () →
      planLoop ro mode (pyStrip a0) (pyStrip b0) (pyStrip t0) step start paths = .ok out →
      ((¬ (out.map (fun it => it.dst)).Nodup →
          build_plan ro fs paths mode a0 b0 t0 start step = .error .duplicateDst) ∧
       ((out.map (fun it => it.dst)).Nodup →
        (∃ it ∈ out, fsExists fs it.dst = true ∧ it.dst ≠ it.src) →
          build_plan ro fs paths mode a0 b0 t0 start step = .error .dstExists))) ∧
    (∀ plan, build_plan ro fs paths mode a0 b0 t0 start step = .ok plan →
      (plan.map (fun it => it.dst)).Nodup ∧
      ∀ it ∈ plan, fsExists fs it.dst = true → it.dst = it.src) := by
  constructor
  · intro out hv hp
    constructor
    · intro hdup
      simp only [build_plan, hv, hp]
      rw [if_pos (fun hEq => hdup ((dedup_length_iff _).mp hEq))]
    · intro hnodup hex
      simp only [build_plan, hv, hp]
      rw [if_neg (fun hne => hne ((dedup_length_iff _).mpr hnodup))]
      cases hf : out.find? (fun it => fsExists fs it.dst && it.dst != it.src) with
      | some w => rfl
      | none =>
          exfalso
          obtain ⟨it, hit, hfst, hneq⟩ := hex
          exact List.find?_eq_none.mp hf it hit
            (by rw [Bool.and_eq_true]; exact ⟨hfst, bne_iff_ne.mpr hneq⟩)
  · intro plan h
    obtain ⟨hp, hdup, hf⟩ := build_plan_ok_parts h
    refine ⟨(dedup_length_iff _).mp hdup, ?_⟩
    intro it hit hfst
    by_contra hne
    exact List.find?_eq_none.mp hf it hit
      (by rw [Bool.and_eq_true]; exact ⟨hfst, bne_iff_ne.mpr hne⟩)

/-- Witness for C4, exercising all three parts: a duplicate-destination plan
(template with `step = 0`), an existing-destination conflict, and a clean
plan. -/
theorem claim_C4_witness :
    (build_plan roId [] [["d", "x.txt"], ["d", "y.txt"]] "template" "" "" "file_\x7bn\x7d" 1 0 =
        .error .duplicateDst ∧
      build_plan roId [(["d", "px.txt"], Node.file "z")] [["d", "x.txt"]] "prefix" "" "p" "" 1 1 =
        .error .dstExists) ∧
    ((([⟨["d", "x.txt"], ["d", "px.txt"]⟩] : List RenamePlanItem).map
        (fun it => it.dst)).Nodup ∧
      ∀ it ∈ ([⟨["d", "x.txt"], ["d", "px.txt"]⟩] : List RenamePlanItem),
        fsExists [] it.dst = true → it.dst = it.src) := by
  refine ⟨⟨?_, ?_⟩, ?_⟩
  · exact ((claim_C4 roId [] [["d", "x.txt"], ["d", "y.txt"]] "template" "" "" "file_\x7bn\x7d"
      1 0).1 [⟨["d", "x.txt"], ["d", "file_1.txt"]⟩, ⟨["d", "y.txt"], ["d", "file_1.txt"]⟩]
      (by decide) (by decide)).1 (by decide)
  · exact ((claim_C4 roId [(["d", "px.txt"], Node.file "z")] [["d", "x.txt"]] "prefix" "" "p" ""
      1 1).1 [⟨["d", "x.txt"], ["d", "px.txt"]⟩] (by decide) (by decide)).2 (by decide) (by decide)
  · exact (claim_C4 roId [] [["d", "x.txt"]] "prefix" "" "p" "" 1 1).2 _ (by decide)

/-- Validation failures surface before the generation stage, for any
filesystem state and path list. -/
theorem build_plan_validate_error {ro : ReOracle} {fs : FS} {paths : List Path}
    {mode a0 b0 t0 : String} {start step : Int} {e : RenameError}
    (h : validateParams ro mode (pyStrip a0) (pyStrip b0) (pyStrip t0) = .error e) :
    build_plan ro fs paths mode a0 b0 t0 start step = .error e := by
  simp only [build_plan, h]

/-- C6: the planner fails with the matching validation error — before
any destination is computed and with no filesystem mutation (the returned
error does not depend on `fs` or `paths`, over which the statement is
universally quantified) — when: mode is `prefix`/`suffix` and both stripped A
and B are empty; mode is `replace` and A is empty; mode is `regex` and A is
empty or does not compile; mode is `template` and the effective template
(template field if nonempty, else B) is empty or lacks the `"{n"` placeholder
marker.  Moreover when both affixes are given, B takes precedence as the
affix. -/
theorem claim_C6 (ro : ReOracle) (fs : FS) (paths : List Path) (mode a0 b0 t0 : String)
    (start step : Int) :
    ((mode = "prefix" ∨ mode = "suffix") → pyStrip a0 = "" → pyStrip b0 = "" →
      build_plan ro fs paths mode a0 b0 t0 start step = .error .affixEmpty) ∧
    (mode = "replace" → pyStrip a0 = "" →
      build_plan ro fs paths mode a0 b0 t0 start step = .error .replaceEmpty) ∧
    (mode = "regex" → pyStrip a0 = "" →
      build_plan ro fs paths mode a0 b0 t0 start step = .error .regexEmpty) ∧
    (mode = "regex" → pyStrip a0 ≠ "" → ro.compileOk (pyStrip a0) = false →
      build_plan ro fs paths mode a0 b0 t0 start step = .error .regexInvalid) ∧
    (mode = "template" →
      (if pyStrip t0 ≠ "" then pyStrip t0 else pyStrip b0) = "" →
      build_plan ro fs paths mode a0 b0 t0 start step = .error .templateEmpty) ∧
    (mode = "template" →
      (if pyStrip t0 ≠ "" then pyStrip t0 else pyStrip b0) ≠ "" →
      hasMarkerB (if pyStrip t0 ≠ "" then pyStrip t0 else pyStrip b0) = false →
      build_plan ro fs paths mode a0 b0 t0 start step = .error .templateNoMarker) ∧
    (∀ (idx : Int) (stem : String), pyStrip b0 ≠ "" →
      newStemFor ro "prefix" (pyStrip a0) (pyStrip b0) (pyStrip t0) idx stem =
          .ok (pyStrip b0 ++ stem) ∧
      newStemFor ro "suffix" (pyStrip a0) (pyStrip b0) (pyStrip t0) idx stem =
          .ok (stem ++ pyStrip b0)) := by
  refine ⟨?_, ?_, ?_, ?_, ?_, ?_, ?_⟩
  · intro hm hA hB
    refine build_plan_validate_error ?_
    rw [validateParams, if_pos ⟨hm, hB, hA⟩]
  · intro hm hA
    subst hm
    refine build_plan_validate_error ?_
    rw [validateParams, if_neg (fun hc => by rcases hc.1 with h | h <;> exact absurd h (by decide)),
      if_pos ⟨rfl, hA⟩]
  · intro hm hA
    subst hm
    refine build_plan_validate_error ?_
    rw [validateParams, if_neg (fun hc => by rcases hc.1 with h | h <;> exact absurd h (by decide)),
      if_neg (fun hc => absurd hc.1 (by decide)), if_pos ⟨rfl, hA⟩]
  · intro hm hA hC
    subst hm
    refine build_plan_validate_error ?_
    rw [validateParams, if_neg (fun hc => by rcases hc.1 with h | h <;> exact absurd h (by decide)),
      if_neg (fun hc => absurd hc.1 (by decide)), if_neg (fun hc => absurd hc.2 hA),
      if_pos ⟨rfl, hC⟩]
  · intro hm hT
    subst hm
    refine build_plan_validate_error ?_
    rw [validateParams, if_neg (fun hc => by rcases hc.1 with h | h <;> exact absurd h (by decide)),
      if_neg (fun hc => absurd hc.1 (by decide)), if_neg (fun hc => absurd hc.1 (by decide)),
      if_neg (fun hc => absurd hc.1 (by decide)), if_pos ⟨rfl, hT⟩]
  · intro hm hT hM
    subst hm
    refine build_plan_validate_error ?_
    rw [validateParams, if_neg (fun hc => by rcases hc.1 with h | h <;> exact absurd h (by decide)),
      if_neg (fun hc => absurd hc.1 (by decide)), if_neg (fun hc => absurd hc.1 (by decide)),
      if_neg (fun hc => absurd hc.1 (by decide)), if_neg (fun hc => absurd hc.2 hT),
      if_pos ⟨rfl, hM⟩]
  · intro idx stem hB
    constructor
    · rw [newStemFor, if_pos rfl, if_pos hB]
    · rw [newStemFor, if_neg (by decide), if_pos rfl, if_pos hB]

/-- Witness for C6, hitting every validation branch at concrete inputs (the
oracle `compileOk` is instantiated to reject everything for the
`regexInvalid` case). -/
theorem claim_C6_witness :
    (build_plan roId [] [["d", "x"]] "prefix" " " " " "t" 1 1 = .error .affixEmpty ∧
      build_plan roId [] [["d", "x"]] "replace" "" "b" "" 1 1 = .error .replaceEmpty ∧
      build_plan roId [] [["d", "x"]] "regex" " " "b" "" 1 1 = .error .regexEmpty) ∧
    (build_plan ⟨fun _ => false, fun _ _ s => s⟩ [] [["d", "x"]] "regex" "(" "b" "" 1 1 =
        .error .regexInvalid ∧
      build_plan roId [] [["d", "x"]] "template" "a" "" " " 1 1 = .error .templateEmpty ∧
      build_plan roId [] [["d", "x"]] "template" "a" "" "file" 1 1 = .error .templateNoMarker) ∧
    (newStemFor roId "prefix" "a" "b" "" 1 "s" = .ok ("b" ++ "s") ∧
      newStemFor roId "suffix" "a" "b" "" 1 "s" = .ok ("s" ++ "b")) := by
  refine ⟨⟨?_, ?_, ?_⟩, ⟨?_, ?_, ?_⟩, ?_⟩
  · exact (claim_C6 roId [] [["d", "x"]] "prefix" " " " " "t" 1 1).1 (Or.inl rfl)
      (by decide) (by decide)
  · exact (claim_C6 roId [] [["d", "x"]] "replace" "" "b" "" 1 1).2.1 rfl (by decide)
  · exact (claim_C6 roId [] [["d", "x"]] "regex" " " "b" "" 1 1).2.2.1 rfl (by decide)
  · exact (claim_C6 ⟨fun _ => false, fun _ _ s => s⟩ [] [["d", "x"]] "regex" "(" "b" ""
      1 1).2.2.2.1 rfl (by decide) (by decide)
  · exact (claim_C6 roId [] [["d", "x"]] "template" "a" "" " " 1 1).2.2.2.2.1 rfl (by decide)
  · exact (claim_C6 roId [] [["d", "x"]] "template" "a" "" "file" 1 1).2.2.2.2.2.1 rfl
      (by decide) (by decide)
  · have h := (claim_C6 roId [] [] "prefix" "a" "b" "" 1 1).2.2.2.2.2.2 1 "s" (by decide)
    exact h

end FileManager
